import Mathlib

/-!
Verification of the Sunside flight-sunlight core against its specification.

The TypeScript source is shallowly embedded:
* JavaScript numbers that only ever hold exact integers (epoch milliseconds,
  minute counts, pixel sizes used in integer positions) are embedded as `Int`;
* JavaScript numbers used in exact-rational arithmetic (the rounding
  allocators of src/core/sunSummary.ts, which only add, subtract, multiply,
  divide, floor and compare) are embedded as `Rat`, wrapped in `JsNum` so the
  `Number.isFinite` guards of the source are representable;
* transcendental floating-point computation (trigonometry of
  src/core/geo.ts, src/core/sun.ts, src/core/daynight.ts) is embedded over
  `Real`, the usual exact-real idealization of IEEE doubles.
-/

namespace Sunside

/-- A JavaScript number for the exact-arithmetic parts of the code: either a
finite value (embedded as a rational) or one of the non-finite values
`NaN`/`Infinity`/`-Infinity` that `Number.isFinite` rejects. -/
inductive JsNum where
  | num (q : ℚ)
  | nan
  | inf
  | negInf
deriving DecidableEq

/-- Embeds `Number.isFinite(value)`. -/
def JsNum.isFinite : JsNum → Bool
  | .num _ => true
  | _ => false

/-- `Number.MAX_SAFE_INTEGER`, i.e. `2^53 - 1`. -/
def MAX_SAFE_INTEGER : ℤ := 9007199254740991

/-- Embeds `clampInt` from src/core/sunSummary.ts:
`if (!Number.isFinite(value)) return min; return Math.min(max, Math.max(min, Math.floor(value)));` -/
def clampInt (value : JsNum) (lo hi : ℤ) : ℤ :=
  match value with
  | .num q => min hi (max lo ⌊q⌋)
  | _ => lo

/-- Embeds the sanitizing map `(v) => (Number.isFinite(v) && v > 0 ? v : 0)`
applied to `exactValues` in `allocateByLargestRemainder` (and to
`exactPercentages` in `allocatePercentagesWithMinimum`). -/
def safePos : JsNum → ℚ
  | .num q => if 0 < q then q else 0
  | _ => 0

/-- The sort order of the `indexed.sort((a, b) => b.frac - a.frac || a.i - b.i)`
call (largest fractional remainder first, ties broken by lowest index).
The comparator is a strict total order up to the distinct indices, so the
sorted result is independent of the sorting algorithm. -/
def remOrderDesc : (ℕ × ℚ) → (ℕ × ℚ) → Prop := fun a b =>
  b.2 < a.2 ∨ (a.2 = b.2 ∧ a.1 ≤ b.1)

/-- The sort order of the `indexed.sort((a, b) => a.frac - b.frac || a.i - b.i)`
call (smallest fractional remainder first, ties broken by lowest index). -/
def remOrderAsc : (ℕ × ℚ) → (ℕ × ℚ) → Prop := fun a b =>
  a.2 < b.2 ∨ (a.2 = b.2 ∧ a.1 ≤ b.1)

instance : DecidableRel remOrderDesc := fun a b =>
  inferInstanceAs (Decidable (b.2 < a.2 ∨ (a.2 = b.2 ∧ a.1 ≤ b.1)))

instance : DecidableRel remOrderAsc := fun a b =>
  inferInstanceAs (Decidable (a.2 < b.2 ∨ (a.2 = b.2 ∧ a.1 ≤ b.1)))

instance : IsTotal (ℕ × ℚ) remOrderDesc where
  total a b := by
    unfold remOrderDesc
    rcases lt_trichotomy a.2 b.2 with h | h | h
    · right; left; exact h
    · rcases Nat.le_total a.1 b.1 with h2 | h2
      · left; right; exact ⟨h, h2⟩
      · right; right; exact ⟨h.symm, h2⟩
    · left; left; exact h

instance : IsTrans (ℕ × ℚ) remOrderDesc where
  trans a b c hab hbc := by
    unfold remOrderDesc at *
    rcases hab with h | ⟨he, hi⟩ <;> rcases hbc with h2 | ⟨he2, hi2⟩
    · left; exact h2.trans h
    · left; exact he2 ▸ h
    · left; exact he ▸ h2
    · right; exact ⟨he.trans he2, hi.trans hi2⟩

instance : IsTotal (ℕ × ℚ) remOrderAsc where
  total a b := by
    unfold remOrderAsc
    rcases lt_trichotomy a.2 b.2 with h | h | h
    · left; left; exact h
    · rcases Nat.le_total a.1 b.1 with h2 | h2
      · left; right; exact ⟨h, h2⟩
      · right; right; exact ⟨h.symm, h2⟩
    · right; left; exact h

instance : IsTrans (ℕ × ℚ) remOrderAsc where
  trans a b c hab hbc := by
    unfold remOrderAsc at *
    rcases hab with h | ⟨he, hi⟩ <;> rcases hbc with h2 | ⟨he2, hi2⟩
    · left; exact h.trans h2
    · left; exact he2 ▸ h
    · left; exact he ▸ h2
    · right; exact ⟨he.trans he2, hi.trans hi2⟩

/-- One `base[...] += 1` array update at index `i` (out-of-range is a no-op,
which is unreachable from the call sites: the bumped indices come from
`indexed`, whose indices all lie below `base.length`). -/
def bumpAt (base : List ℤ) (i : ℕ) : List ℤ :=
  base.set i (base.getD i 0 + 1)

/-- Embeds the positive-deficit loop of `allocateByLargestRemainder`:
`for (let k = 0; k < initialDiff; k += 1) base[indexed[k % indexed.length].i] += 1;`
`order` is the list of indices of the sorted `indexed` array; `k` is the loop
counter and `r` the number of iterations left.  The source indexes
`indexed[k % indexed.length]`, which THROWS a TypeError on an empty array
(`k % 0` is `NaN`): that fault is modeled by `allocateByLargestRemainderE`
below, which returns `none` on exactly the inputs that reach this loop with
an empty `indexed`; `distributeAdd` itself is only evaluated on the
non-empty `order` the source actually completes the loop with. -/
def distributeAdd (order : List ℕ) : ℕ → ℕ → List ℤ → List ℤ
  | _, 0, base => base
  | k, r + 1, base => distributeAdd order (k + 1) r (bumpAt base (order.getD (k % order.length) 0))

/-- One pass of the negative-deficit `for (const entry of indexed)` loop:
walks the sorted indices, decrementing every positive entry until `remaining`
runs out; returns the new base, the new `remaining` and the `changed` flag. -/
def decPass : List ℕ → ℤ → List ℤ → Bool → (List ℤ × ℤ × Bool)
  | [], remaining, base, changed => (base, remaining, changed)
  | i :: rest, remaining, base, changed =>
    if remaining = 0 then (base, remaining, changed)
    else if base.getD i 0 ≤ 0 then decPass rest remaining base changed
    else decPass rest (remaining - 1) (base.set i (base.getD i 0 - 1)) true

/-- Embeds the negative-deficit `while (remaining > 0)` loop of
`allocateByLargestRemainder`.  Each pass that changes anything decrements
`remaining` at least once and the loop breaks when a pass changes nothing, so
`fuel := remaining` bounds the number of passes and the fueled recursion
computes exactly the loop's result. -/
def decWhile (order : List ℕ) : ℕ → ℤ → List ℤ → List ℤ
  | 0, _, base => base
  | fuel + 1, remaining, base =>
    if remaining ≤ 0 then base
    else
      match decPass order remaining base false with
      | (base2, remaining2, changed) =>
        if changed then decWhile order fuel remaining2 base2 else base2

/-- Embeds the final `diff < 0` correction loop of `allocateByLargestRemainder`:
`for (let i = 0; ...) { const take = Math.min(base[i], remaining); base[i] -= take; remaining -= take; }`
(the loop exits early once `remaining` is exhausted). -/
def takeDown : List ℤ → ℤ → List ℤ
  | [], _ => []
  | b :: rest, remaining =>
    if remaining ≤ 0 then b :: rest
    else (b - min b remaining) :: takeDown rest (remaining - min b remaining)

/-- The `(i, frac)` records built by
`const indexed = safe.map((v, i) => ({ i, frac: v - base[i] }));`. -/
def indexedFracs (safe : List ℚ) : List (ℕ × ℚ) :=
  safe.enum.map fun p => (p.1, p.2 - ⌊p.2⌋)

/-- The remainder-distribution stage of `allocateByLargestRemainder`: the
value of `base` after the `initialDiff > 0` / `initialDiff < 0` branches. -/
def lrBase2 (safe : List ℚ) (target : ℤ) : List ℤ :=
  let base := safe.map fun v => ⌊v⌋
  let initialDiff := target - base.sum
  let indexed := indexedFracs safe
  if 0 < initialDiff then
    distributeAdd ((indexed.insertionSort remOrderDesc).map Prod.fst) 0 initialDiff.toNat base
  else if initialDiff < 0 then
    decWhile ((indexed.insertionSort remOrderAsc).map Prod.fst) (-initialDiff).toNat (-initialDiff) base
  else base

/-- The final-correction stage of `allocateByLargestRemainder` (the
`// Final correction (should be rare in practice).` block of the source). -/
def lrCore (safe : List ℚ) (target : ℤ) : List ℤ :=
  let base2 := lrBase2 safe target
  let diff := target - base2.sum
  if 0 < diff ∧ base2 ≠ [] then base2.set 0 (base2.getD 0 0 + diff)
  else if diff < 0 ∧ base2 ≠ [] then takeDown base2 (-diff)
  else base2

/-- Embeds `allocateByLargestRemainder(exactValues, total)` from
src/core/sunSummary.ts: floor every sanitized value, then distribute the
integer deficit to the largest fractional remainders (or, for a negative
deficit, remove from the smallest remainders), then apply the final
correction so the entries sum to the clamped target. -/
def allocateByLargestRemainder (exactValues : List JsNum) (total : JsNum) : List ℤ :=
  let target := clampInt total 0 MAX_SAFE_INTEGER
  if target = 0 then exactValues.map fun _ => 0
  else lrCore (exactValues.map safePos) target

/-- `allocateByLargestRemainder` with its fault made explicit.  On an empty
input list with a positive clamped target the source reaches
`for (let k = 0; k < initialDiff; k += 1) base[indexed[k % indexed.length].i] += 1`
with `indexed = []` (the floors sum to `0`, so `initialDiff = target > 0`):
`k % 0` is `NaN`, `indexed[NaN]` is `undefined`, and `.i` throws a
TypeError — modeled as `none`.  On every other input the loop indices are in
range, the function returns normally, and the result is the value of
`allocateByLargestRemainder`. -/
def allocateByLargestRemainderE (exactValues : List JsNum) (total : JsNum) :
    Option (List ℤ) :=
  let target := clampInt total 0 MAX_SAFE_INTEGER
  if target = 0 then some (exactValues.map fun _ => 0)
  else if exactValues = [] then none
  else some (lrCore (exactValues.map safePos) target)

/-- Embeds the raising loop of `allocatePercentagesWithMinimum`: walks
`out`/`positive` in parallel, lifting every positive entry below the minimum
up to `minValue`; returns the new list together with `required`, the total
amount added (the source accumulates `required` in index order; addition is
commutative so the right fold computes the same sum). -/
def raiseNeed (minValue : ℤ) : List (ℤ × Bool) → (List ℤ × ℤ)
  | [] => ([], 0)
  | (v, pos) :: rest =>
    let r := raiseNeed minValue rest
    if pos ∧ v < minValue then (minValue :: r.1, (minValue - v) + r.2)
    else (v :: r.1, r.2)

/-- Membership test of the source's `needSet`: index `i` was pushed to
`needIndices` exactly when it is positive and its rounded value was below the
minimum. -/
def isNeedIdx (positive : List Bool) (rounded : List ℤ) (minValue : ℤ) (i : ℕ) : Prop :=
  positive.getD i false = true ∧ rounded.getD i 0 < minValue

instance (positive : List Bool) (rounded : List ℤ) (minValue : ℤ) (i : ℕ) :
    Decidable (isNeedIdx positive rounded minValue i) :=
  inferInstanceAs (Decidable (_ ∧ _))

/-- The sort order of the donors sort
`(a, b) => b.value - a.value || a.i - b.i` (largest value first, ties broken
by lowest index); the entries are `(i, value)` pairs. -/
def donorOrder : (ℕ × ℤ) → (ℕ × ℤ) → Prop := fun a b =>
  b.2 < a.2 ∨ (a.2 = b.2 ∧ a.1 ≤ b.1)

instance : DecidableRel donorOrder := fun a b =>
  inferInstanceAs (Decidable (b.2 < a.2 ∨ (a.2 = b.2 ∧ a.1 ≤ b.1)))

instance : IsTotal (ℕ × ℤ) donorOrder where
  total a b := by
    unfold donorOrder
    rcases lt_trichotomy a.2 b.2 with h | h | h
    · right; left; exact h
    · rcases Nat.le_total a.1 b.1 with h2 | h2
      · left; right; exact ⟨h, h2⟩
      · right; right; exact ⟨h.symm, h2⟩
    · left; left; exact h

instance : IsTrans (ℕ × ℤ) donorOrder where
  trans a b c hab hbc := by
    unfold donorOrder at *
    rcases hab with h | ⟨he, hi⟩ <;> rcases hbc with h2 | ⟨he2, hi2⟩
    · left; exact h2.trans h
    · left; exact he2 ▸ h
    · left; exact he ▸ h2
    · right; exact ⟨he.trans he2, hi.trans hi2⟩

/-- The sorted donors list of `allocatePercentagesWithMinimum`: entries of the
post-raise `out` that are positive, not in the need set, and above the
minimum, sorted by value descending (ties by index). -/
def donorsOf (out : List ℤ) (positive : List Bool) (rounded : List ℤ) (minValue : ℤ) :
    List (ℕ × ℤ) :=
  ((out.enum.filter fun p =>
      decide (positive.getD p.1 false = true) &&
      !(decide (isNeedIdx positive rounded minValue p.1)) &&
      decide (minValue < p.2)).insertionSort donorOrder)

/-- Embeds the donation loop of `allocatePercentagesWithMinimum`:
`for (const { i } of donors) { ... const take = Math.min(canGive, remaining); out[i] -= take; remaining -= take; }` -/
def giveLoop (minValue : ℤ) : List (ℕ × ℤ) → ℤ → List ℤ → List ℤ
  | [], _, out => out
  | (i, _) :: rest, remaining, out =>
    if remaining = 0 then out
    else
      let canGive := out.getD i 0 - minValue
      if canGive ≤ 0 then giveLoop minValue rest remaining out
      else
        giveLoop minValue rest (remaining - min canGive remaining)
          (out.set i (out.getD i 0 - min canGive remaining))

/-- The minimum-percent adjustment stage of `allocatePercentagesWithMinimum`
(everything after the feasibility checks have passed): raise under-minimum
positive buckets to the minimum, take the required difference from the
largest donors, and apply the final `diff` fix-up. -/
def apwmAdjust (rounded : List ℤ) (positive : List Bool) (target minValue : ℤ) : List ℤ :=
  let raised := raiseNeed minValue (rounded.zip positive)
  let out := raised.1
  let required := raised.2
  if required = 0 then out
  else
    let donors := donorsOf out positive rounded minValue
    let available := (donors.map fun p => max 0 (out.getD p.1 0 - minValue)).sum
    if available < required then rounded
    else
      let out2 := giveLoop minValue donors required out
      let diff := target - out2.sum
      if diff = 0 then out2
      else
        match donors.head? with
        | some d => out2.set d.1 (out2.getD d.1 0 + diff)
        | none =>
          match positive.findIdx? id with
          | some j => out2.set j (out2.getD j 0 + diff)
          | none => out2

/-- Embeds `allocatePercentagesWithMinimum(exactPercentages, total = 100, minNonZero = 1)`
from src/core/sunSummary.ts: largest-remainder rounding followed by the
minimum-nonzero-percent redistribution (raise under-minimum positive buckets
to the minimum, taking the difference from the largest donors), with a
fallback to the unadjusted rounding when infeasible. -/
def allocatePercentagesWithMinimum (exactPercentages : List JsNum) (total minNonZero : JsNum) :
    List ℤ :=
  let target := clampInt total 0 100
  let minValue := clampInt minNonZero 0 target
  let safeExact := exactPercentages.map safePos
  let rounded := allocateByLargestRemainder (safeExact.map JsNum.num) (JsNum.num target)
  if target = 0 ∨ minValue = 0 ∨ rounded = [] then rounded
  else
    let positive := safeExact.map fun v => decide (0 < v)
    let positiveCount : ℤ := positive.countP id
    if positiveCount = 0 then rounded
    else if target < positiveCount * minValue then rounded
    else apwmAdjust rounded positive target minValue

/-!
### Spherical geometry (src/core/geo.ts)

Embedded over `Real`.  `Math.atan2` is embedded as the standard piecewise
definition `atan2`; IEEE signed zeros do not exist in the real idealization,
so the `atan2(±0, ±0)` corner cases all collapse to the mathematical
convention `atan2 0 0 = 0`.
-/

/-- One 2-D point of the geographic model. -/
structure GeoPoint where
  lat : ℝ
  lon : ℝ

/-- One projected (canvas) point. -/
structure ProjectedPoint where
  x : ℝ
  y : ℝ

/-- Embeds `GreatCirclePath` (the source field `from` is a Lean keyword and is
embedded as `from'`; `to` likewise as `to'`). -/
structure GreatCirclePath where
  from' : GeoPoint
  to' : GeoPoint
  distanceMeters : ℝ
  centralAngle : ℝ

/-- Embeds `Math.atan2(y, x)`. -/
noncomputable def atan2 (y x : ℝ) : ℝ :=
  if 0 < x then Real.arctan (y / x)
  else if x < 0 ∧ 0 ≤ y then Real.arctan (y / x) + Real.pi
  else if x < 0 ∧ y < 0 then Real.arctan (y / x) - Real.pi
  else if x = 0 ∧ 0 < y then Real.pi / 2
  else if x = 0 ∧ y < 0 then -(Real.pi / 2)
  else 0

/-- `EARTH_RADIUS_METERS` from src/core/geo.ts. -/
noncomputable def EARTH_RADIUS_METERS : ℝ := 6371000

/-- Embeds `toRadians`. -/
noncomputable def toRadians (deg : ℝ) : ℝ := deg * Real.pi / 180

/-- Embeds `toDegrees`. -/
noncomputable def toDegrees (rad : ℝ) : ℝ := rad * 180 / Real.pi

/-- Embeds `haversineDistance`, returning `(distance, centralAngle)`. -/
noncomputable def haversineDistance (p q : GeoPoint) : ℝ × ℝ :=
  let lat1 := toRadians p.lat
  let lat2 := toRadians q.lat
  let dLat := lat2 - lat1
  let dLon := toRadians (q.lon - p.lon)
  let a := Real.sin (dLat / 2) ^ 2 +
    Real.cos lat1 * Real.cos lat2 * Real.sin (dLon / 2) ^ 2
  let centralAngle := 2 * atan2 (Real.sqrt a) (Real.sqrt (max 0 (1 - a)))
  (EARTH_RADIUS_METERS * centralAngle, centralAngle)

/-- Embeds `toCartesian` (unit sphere). -/
noncomputable def toCartesian (point : GeoPoint) : ℝ × ℝ × ℝ :=
  let lat := toRadians point.lat
  let lon := toRadians point.lon
  (Real.cos lat * Real.cos lon, Real.cos lat * Real.sin lon, Real.sin lat)

/-- Embeds `fromCartesian`. -/
noncomputable def fromCartesian (v : ℝ × ℝ × ℝ) : GeoPoint :=
  let lon := atan2 v.2.1 v.1
  let hyp := Real.sqrt (v.1 * v.1 + v.2.1 * v.2.1)
  let lat := atan2 v.2.2 hyp
  ⟨toDegrees lat, toDegrees lon⟩

/-- Embeds `createGreatCirclePath`. -/
noncomputable def createGreatCirclePath (p q : GeoPoint) : GreatCirclePath :=
  let d := haversineDistance p q
  ⟨p, q, d.1, d.2⟩

/-- The 3-D inner product of the unit vectors of two geographic points; this
is the `dot` computed inside `interpolateOnGreatCircle`. -/
noncomputable def cartesianDot (p q : GeoPoint) : ℝ :=
  (toCartesian p).1 * (toCartesian q).1 +
    (toCartesian p).2.1 * (toCartesian q).2.1 +
    (toCartesian p).2.2 * (toCartesian q).2.2

/-- Embeds `interpolateOnGreatCircle` (slerp).  The source's
`Number.isNaN(omega)` guard is unreachable in the real idealization because
the clamp keeps the `acos` argument inside `[-1, 1]`. -/
noncomputable def interpolateOnGreatCircle (path : GreatCirclePath) (t : ℝ) : GeoPoint :=
  let clamped := min 1 (max 0 t)
  let a := toCartesian path.from'
  let b := toCartesian path.to'
  let dot := a.1 * b.1 + a.2.1 * b.2.1 + a.2.2 * b.2.2
  let omega := Real.arccos (min 1 (max (-1) dot))
  if omega = 0 then path.from'
  else
    let sinOmega := Real.sin omega
    let factorA := Real.sin ((1 - clamped) * omega) / sinOmega
    let factorB := Real.sin (clamped * omega) / sinOmega
    fromCartesian
      (factorA * a.1 + factorB * b.1,
       factorA * a.2.1 + factorB * b.2.1,
       factorA * a.2.2 + factorB * b.2.2)

/-- Embeds `projectEquirectangular`. -/
noncomputable def projectEquirectangular (point : GeoPoint) (width height : ℝ) :
    ProjectedPoint :=
  let lat := max (-90) (min 90 point.lat)
  let lon := max (-180) (min 180 point.lon)
  ⟨((lon + 180) / 360) * width, ((90 - lat) / 180) * height⟩

/-- The point written by the spec's words "clamped to the nearest valid edge
of the lat/lon ranges"; used to compare against the source's behaviour. -/
noncomputable def clampToValidRanges (point : GeoPoint) : GeoPoint :=
  ⟨max (-90) (min 90 point.lat), max (-180) (min 180 point.lon)⟩

/-- One iteration of the `for (const point of points)` loop of
`splitPolylineAtMapSeam`; the accumulator carries the finished segments and
the current segment. -/
noncomputable def splitStep (width : ℝ)
    (acc : List (List ProjectedPoint) × List ProjectedPoint) (point : ProjectedPoint) :
    List (List ProjectedPoint) × List ProjectedPoint :=
  match acc.2.getLast? with
  | none => (acc.1, [point])
  | some prev =>
    let dx := point.x - prev.x
    if |dx| ≤ width / 2 then (acc.1, acc.2 ++ [point])
    else if point.x < prev.x then
      let unwrappedX := point.x + width
      let denom := unwrappedX - prev.x
      if denom = 0 then (acc.1 ++ [acc.2], [point])
      else
        let s := (width - prev.x) / denom
        let y := prev.y + s * (point.y - prev.y)
        (acc.1 ++ [acc.2 ++ [⟨width, y⟩]], [⟨0, y⟩, point])
    else
      let unwrappedX := point.x - width
      let denom := unwrappedX - prev.x
      if denom = 0 then (acc.1 ++ [acc.2], [point])
      else
        let s := (0 - prev.x) / denom
        let y := prev.y + s * (point.y - prev.y)
        (acc.1 ++ [acc.2 ++ [⟨0, y⟩]], [⟨width, y⟩, point])

/-- Embeds `splitPolylineAtMapSeam`.  `Number.isFinite(width)` always holds
in the real idealization, leaving the `width <= 0` guard. -/
noncomputable def splitPolylineAtMapSeam (points : List ProjectedPoint) (width : ℝ) :
    List (List ProjectedPoint) :=
  if width ≤ 0 then [points]
  else if points.length ≤ 1 then (if points.isEmpty then [] else [points])
  else
    let res := points.foldl (splitStep width) ([], [])
    if res.2.isEmpty then res.1 else res.1 ++ [res.2]

/-- The spec's adjacency bound for the seam splitter: consecutive points of
an emitted sub-polyline differ horizontally by at most half the map width. -/
def seamNear (width : ℝ) (p q : ProjectedPoint) : Prop :=
  |q.x - p.x| ≤ width / 2

/-- The spec's seam-continuity relation between consecutive emitted
sub-polylines: one ends on a map edge (`x = width` or `x = 0`) and the next
starts on the opposite edge. -/
def seamLinked (width : ℝ) (s t : List ProjectedPoint) : Prop :=
  (s.getLast?.map (fun p => p.x) = some width ∧ t.head?.map (fun p => p.x) = some 0) ∨
  (s.getLast?.map (fun p => p.x) = some 0 ∧ t.head?.map (fun p => p.x) = some width)

/-- The full boundary relation between consecutive sub-polylines emitted by
`splitPolylineAtMapSeam` on the input polyline `pts`.  Either the crossing
had a zero interpolation denominator — then no point is inserted, and the
boundary is two ORIGINAL points already sitting exactly on opposite map
edges — or the crossing point was computed by linear interpolation in `x`
between the neighboring original points `u` and `v` and inserted at BOTH
edges with the same interpolated `y`: at `x = width` ending one sub-polyline
and `x = 0` starting the next for a westward (`v.x < u.x`) crossing, and at
`x = 0` / `x = width` for an eastward one. -/
def seamCross (width : ℝ) (pts : List ProjectedPoint) (s t : List ProjectedPoint) : Prop :=
  (∃ a b, s.getLast? = some a ∧ t.head? = some b ∧
    ((a.x = width ∧ b.x = 0) ∨ (a.x = 0 ∧ b.x = width)) ∧ a ∈ pts ∧ b ∈ pts) ∨
  (∃ r1 u v r2 yc, s = r1 ++ [u, ⟨width, yc⟩] ∧ t = ⟨0, yc⟩ :: v :: r2 ∧
    yc = u.y + (width - u.x) / (v.x + width - u.x) * (v.y - u.y)) ∨
  (∃ r1 u v r2 yc, s = r1 ++ [u, ⟨0, yc⟩] ∧ t = ⟨width, yc⟩ :: v :: r2 ∧
    yc = u.y + (0 - u.x) / (v.x - width - u.x) * (v.y - u.y))

/-- The invariant maintained by the fold of `splitPolylineAtMapSeam` over the
polyline `pts`: an empty current segment only occurs in the initial state,
stored points are within the map, the current segment ends with an original
input point, finished segments are nonempty and satisfy the adjacency bound,
and consecutive segments satisfy the boundary relation `seamCross`. -/
def seamInv (width : ℝ) (pts : List ProjectedPoint)
    (acc : List (List ProjectedPoint) × List ProjectedPoint) : Prop :=
  (acc.2 = [] → acc.1 = []) ∧
  (∀ p ∈ acc.2, 0 ≤ p.x ∧ p.x ≤ width) ∧
  (∀ p, acc.2.getLast? = some p → p ∈ pts) ∧
  (∀ s ∈ acc.1, s ≠ []) ∧
  (∀ s ∈ acc.1, s.Chain' (seamNear width)) ∧
  acc.2.Chain' (seamNear width) ∧
  List.Chain' (seamCross width pts) (acc.1 ++ [acc.2])

/-- Embeds `distanceMeters`. -/
noncomputable def distanceMeters (p q : GeoPoint) : ℝ :=
  (haversineDistance p q).1

/-!
### Sun utilities (src/core/sun.ts)

`getSunPosition` wraps the external SunCalc library and is not needed by any
claim; the subsolar-point computation (adapted from SunCalc internals in the
source itself) and `classifyDaylight` are embedded below.
-/

/-- The daylight classification. -/
inductive DaylightStatus where
  | day
  | twilight
  | night
deriving DecidableEq

/-- Embeds `classifyDaylight(altitudeRad)`. -/
noncomputable def classifyDaylight (altitudeRad : ℝ) : DaylightStatus :=
  let altitudeDeg := altitudeRad * 180 / Real.pi
  if 0 < altitudeDeg then .day
  else if -6 ≤ altitudeDeg then .twilight
  else .night

/-- Embeds the subsolar point record. -/
structure SubsolarPoint where
  lat : ℝ
  lon : ℝ

/-- JavaScript truncation toward zero (used by the `%` remainder). -/
noncomputable def jsTrunc (x : ℝ) : ℤ :=
  if 0 ≤ x then ⌊x⌋ else ⌈x⌉

/-- The JavaScript `%` remainder operator (sign of the dividend). -/
noncomputable def jsMod (a b : ℝ) : ℝ :=
  a - b * (jsTrunc (a / b) : ℝ)

/-- `RAD` from src/core/sun.ts. -/
noncomputable def sunRAD : ℝ := Real.pi / 180

/-- `dayMs` from src/core/sun.ts. -/
noncomputable def dayMs : ℝ := 1000 * 60 * 60 * 24

/-- `J1970` from src/core/sun.ts. -/
noncomputable def J1970 : ℝ := 2440588

/-- `J2000` from src/core/sun.ts. -/
noncomputable def J2000 : ℝ := 2451545

/-- `E`, the obliquity of Earth, from src/core/sun.ts. -/
noncomputable def obliquityE : ℝ := sunRAD * 23.4397

/-- Embeds `toJulian` (timestamps are epoch milliseconds). -/
noncomputable def toJulian (ms : ℝ) : ℝ := ms / dayMs - 0.5 + J1970

/-- Embeds `toDays`. -/
noncomputable def toDays (ms : ℝ) : ℝ := toJulian ms - J2000

/-- Embeds `rightAscension`. -/
noncomputable def rightAscension (l b : ℝ) : ℝ :=
  atan2 (Real.sin l * Real.cos obliquityE - Real.tan b * Real.sin obliquityE) (Real.cos l)

/-- Embeds `declination`. -/
noncomputable def declination (l b : ℝ) : ℝ :=
  Real.arcsin (Real.sin b * Real.cos obliquityE + Real.cos b * Real.sin obliquityE * Real.sin l)

/-- Embeds `siderealTime`. -/
noncomputable def siderealTime (d lw : ℝ) : ℝ :=
  sunRAD * (280.16 + 360.9856235 * d) - lw

/-- Embeds `solarMeanAnomaly`. -/
noncomputable def solarMeanAnomaly (d : ℝ) : ℝ :=
  sunRAD * (357.5291 + 0.98560028 * d)

/-- Embeds `eclipticLongitude`. -/
noncomputable def eclipticLongitude (M : ℝ) : ℝ :=
  let C := sunRAD * (1.9148 * Real.sin M + 0.02 * Real.sin (2 * M) +
    0.0003 * Real.sin (3 * M))
  let P := sunRAD * 102.9372
  M + C + P + Real.pi

/-- Embeds `sunCoords`, returning `(dec, ra)`. -/
noncomputable def sunCoords (d : ℝ) : ℝ × ℝ :=
  let M := solarMeanAnomaly d
  let L := eclipticLongitude M
  (declination L 0, rightAscension L 0)

/-- Embeds `normalizeRadians`. -/
noncomputable def normalizeRadians (rad : ℝ) : ℝ :=
  let twoPi := Real.pi * 2
  jsMod (jsMod (rad + Real.pi) twoPi + twoPi) twoPi - Real.pi

/-- Embeds `getSubsolarPoint(timestamp)` (timestamp in epoch milliseconds). -/
noncomputable def getSubsolarPoint (ms : ℝ) : SubsolarPoint :=
  let d := toDays ms
  let coords := sunCoords d
  let gmst := siderealTime d 0
  let lonRad := normalizeRadians (coords.2 - gmst)
  let latDeg := coords.1 * 180 / Real.pi
  let lonDeg := jsMod (lonRad * 180 / Real.pi + 540) 360 - 180
  ⟨latDeg, lonDeg⟩

/-!
### Day/night overlay (src/core/daynight.ts)

SVG path strings are modeled as lists of path commands carrying the same
numeric coordinates that the source renders with `fmt` (round to one decimal
place; the source's `-0` normalization is a no-op over the reals).  The
civil-twilight band builder `computeTwilightBandPath` is not constrained by
any claim and is abstracted as the `twilightBuilder` parameter, universally
quantified in the theorems about the overlay.
-/

/-- One absolute path command of a rendered path string. -/
inductive PathCmd where
  | move (x y : ℝ)
  | line (x y : ℝ)
  | close

/-- Embeds `fmt` (round to one decimal place). -/
noncomputable def fmt (value : ℝ) : ℝ :=
  (⌊value * 10 + 1 / 2⌋ : ℝ) / 10

/-- `EQUINOX_LAT_EPS_DEG` from src/core/daynight.ts. -/
noncomputable def EQUINOX_LAT_EPS_DEG : ℝ := 1e-3

/-- Embeds `lonToX`. -/
noncomputable def lonToX (lonDeg width : ℝ) : ℝ :=
  ((lonDeg + 180) / 360) * width

/-- Embeds `normalizeLon`. -/
noncomputable def normalizeLon (lonDeg : ℝ) : ℝ :=
  jsMod (lonDeg + 540) 360 - 180

/-- Embeds `clamp`. -/
noncomputable def clampR (value lo hi : ℝ) : ℝ :=
  min hi (max lo value)

/-- Embeds `verticalLinePath` (the source clamps `x` below by `0`). -/
noncomputable def verticalLinePath (x height : ℝ) : List PathCmd :=
  let cx := max 0 x
  [.move (fmt cx) 0, .line (fmt cx) (fmt height)]

/-- Embeds `rectPath`. -/
noncomputable def rectPath (x0 x1 height : ℝ) : List PathCmd :=
  [.move (fmt x0) 0, .line (fmt x1) 0, .line (fmt x1) (fmt height),
   .line (fmt x0) (fmt height), .close]

/-- Embeds `pushRect` (appends one clamped rectangle unless degenerate). -/
noncomputable def pushRect (out : List (List PathCmd)) (x0 x1 width height : ℝ) :
    List (List PathCmd) :=
  let start := clampR (min x0 x1) 0 width
  let stop := clampR (max x0 x1) 0 width
  if stop - start ≤ 1e-6 then out else out ++ [rectPath start stop height]

/-- Embeds `polylinePath`. -/
noncomputable def polylinePath (points : List ProjectedPoint) : List PathCmd :=
  match points with
  | [] => []
  | first :: rest =>
    .move (fmt first.x) (fmt first.y) :: rest.map fun p => .line (fmt p.x) (fmt p.y)

/-- Embeds `polygonNorthOfCurve`. -/
noncomputable def polygonNorthOfCurve (points : List ProjectedPoint) (width : ℝ) :
    List PathCmd :=
  if points.isEmpty then []
  else polylinePath points ++ [.line (fmt width) 0, .line 0 0, .close]

/-- Embeds `polygonSouthOfCurve`. -/
noncomputable def polygonSouthOfCurve (points : List ProjectedPoint) (width height : ℝ) :
    List PathCmd :=
  if points.isEmpty then []
  else polylinePath points ++ [.line (fmt width) (fmt height), .line 0 (fmt height), .close]

/-- Embeds `terminatorLatitudeDeg` (the two sequential branch corrections of
the source are applied in order). -/
noncomputable def terminatorLatitudeDeg (subsolar : SubsolarPoint) (lonDeg : ℝ) : ℝ :=
  let lat0 := subsolar.lat * sunRAD
  let lon0 := subsolar.lon * sunRAD
  let lon := lonDeg * sunRAD
  let delta := lon - lon0
  let y := -(Real.cos lat0 * Real.cos delta)
  let x := Real.sin lat0
  let phi := atan2 y x
  let phi1 := if Real.pi / 2 < phi then phi - Real.pi else phi
  let phi2 := if phi1 < -(Real.pi / 2) then phi1 + Real.pi else phi1
  phi2 / sunRAD

/-- Embeds `sampleTerminatorByLongitude`. -/
noncomputable def sampleTerminatorByLongitude (subsolar : SubsolarPoint)
    (width height : ℝ) (samples : ℤ) : List ProjectedPoint :=
  let count := (max 2 samples).toNat
  (List.range count).map fun i =>
    let t : ℝ := if count = 1 then 0 else (i : ℝ) / ((count : ℝ) - 1)
    let lon := -180 + t * 360
    let lat := terminatorLatitudeDeg subsolar lon
    projectEquirectangular ⟨lat, lon⟩ width height

/-- The overlay record (path strings as command lists). -/
structure DayNightOverlay where
  subsolar : SubsolarPoint
  sun : ProjectedPoint
  terminatorPath : List PathCmd
  dayPath : List PathCmd
  nightPath : List PathCmd
  twilightPath : List PathCmd

/-- Embeds `computeEquinoxOverlay` (its `twilightPath` is the empty string;
the caller replaces it). -/
noncomputable def computeEquinoxOverlay (subsolar : SubsolarPoint)
    (width height : ℝ) (sun : ProjectedPoint) : DayNightOverlay :=
  let lon1 := normalizeLon (subsolar.lon - 90)
  let lon2 := normalizeLon (subsolar.lon + 90)
  let x1 := lonToX lon1 width
  let x2 := lonToX lon2 width
  let terminatorPath := verticalLinePath x1 height ++ verticalLinePath x2 height
  if x1 ≤ x2 then
    { subsolar := subsolar, sun := sun, terminatorPath := terminatorPath,
      dayPath := (pushRect [] x1 x2 width height).join,
      nightPath := (pushRect (pushRect [] 0 x1 width height) x2 width width height).join,
      twilightPath := [] }
  else
    { subsolar := subsolar, sun := sun, terminatorPath := terminatorPath,
      dayPath := (pushRect (pushRect [] 0 x2 width height) x1 width width height).join,
      nightPath := (pushRect [] x2 x1 width height).join,
      twilightPath := [] }

/-- The body of `computeDayNightOverlay` after `subsolar` has been computed
(everything in the source past its first line depends on the timestamp only
through the subsolar point), parameterized by the twilight-band builder
(`computeTwilightBandPath` in the source). -/
noncomputable def computeDayNightOverlayFrom
    (twilightBuilder : SubsolarPoint → ℝ → ℝ → ℤ → List PathCmd)
    (subsolar : SubsolarPoint) (width height : ℝ) (samples : ℤ) : DayNightOverlay :=
  let sun := projectEquirectangular ⟨subsolar.lat, subsolar.lon⟩ width height
  if width ≤ 0 ∨ height ≤ 0 then
    { subsolar := subsolar, sun := sun, terminatorPath := [], dayPath := [],
      nightPath := [], twilightPath := [] }
  else if |subsolar.lat| ≤ EQUINOX_LAT_EPS_DEG then
    { computeEquinoxOverlay subsolar width height sun with
        twilightPath := twilightBuilder subsolar width height samples }
  else
    let terminator := sampleTerminatorByLongitude subsolar width height samples
    let terminatorPath := polylinePath terminator
    let northPoly := polygonNorthOfCurve terminator width
    let southPoly := polygonSouthOfCurve terminator width height
    let dayIsNorth := 0 < subsolar.lat
    { subsolar := subsolar, sun := sun, terminatorPath := terminatorPath,
      dayPath := if dayIsNorth then northPoly else southPoly,
      nightPath := if dayIsNorth then southPoly else northPoly,
      twilightPath := twilightBuilder subsolar width height samples }

/-- Embeds `computeDayNightOverlay(timestamp, width, height, samples)` from
src/core/daynight.ts: compute the subsolar point of the instant, then build
the overlay from it. -/
noncomputable def computeDayNightOverlay
    (twilightBuilder : SubsolarPoint → ℝ → ℝ → ℤ → List PathCmd)
    (timestamp : ℝ) (width height : ℝ) (samples : ℤ) : DayNightOverlay :=
  computeDayNightOverlayFrom twilightBuilder (getSubsolarPoint timestamp)
    width height samples

/-!
### Flight plan and sampling (src/core/flight.ts, src/core/time.ts)

The `ZonedDateTime` record carries several derived fields in the source
(ISO text, zone id); only the authoritative `millis` participates in the
embedded logic.  `sampleFlightAt` computes sun positions through the external
SunCalc library; its classification output at a timeline position is
abstracted as the `sampler` argument of `computeFlightSunSummary`.
-/

/-- A zoned instant; `millis` is the epoch-millisecond instant. -/
structure ZonedDateTime where
  millis : ℤ

/-- Embeds `durationMinutes(startMillis, endMillis)` from the time module:
`Math.round((end - start) / 60000)`. -/
def durationMinutes (startMillis endMillis : ℤ) : ℤ :=
  round (((endMillis - startMillis : ℤ) : ℚ) / 60000)

/-- An airport record (src/core/flight.ts). -/
structure Airport where
  id : ℤ
  name : String
  city : String
  country : String
  iata : Option String
  icao : Option String
  location : GeoPoint
  timeZone : String

/-- The validated flight plan (src/core/flight.ts). -/
structure FlightPlan where
  departureAirport : Airport
  arrivalAirport : Airport
  departureTime : ZonedDateTime
  arrivalTime : ZonedDateTime
  departureUtc : ℤ
  arrivalUtc : ℤ
  durationMinutes : ℤ
  path : GreatCirclePath

/-- The error thrown by `validateChronology`. -/
inductive ChronologyError where
  | arrivalNotAfterDeparture
deriving DecidableEq

/-- Embeds `createFlightPlan`; the `validateChronology` throw is modeled by
the `Except` error. -/
noncomputable def createFlightPlan (departureAirport arrivalAirport : Airport)
    (departureTime arrivalTime : ZonedDateTime) :
    Except ChronologyError FlightPlan :=
  let departureUtc := departureTime.millis
  let arrivalUtc := arrivalTime.millis
  if arrivalUtc ≤ departureUtc then .error .arrivalNotAfterDeparture
  else
    .ok
      { departureAirport := departureAirport, arrivalAirport := arrivalAirport,
        departureTime := departureTime, arrivalTime := arrivalTime,
        departureUtc := departureUtc, arrivalUtc := arrivalUtc,
        durationMinutes := durationMinutes departureUtc arrivalUtc,
        path := createGreatCirclePath departureAirport.location arrivalAirport.location }

/-!
### Sun-time summary (src/core/sunSummary.ts, `computeFlightSunSummary`)

Direction buckets are kept in the source `BUCKET_ORDER`
(`left, right, ahead, behind, night`), daylight buckets in `DAYLIGHT_ORDER`
(`day, twilight, night`); the bucket records are modeled as lists in those
orders.
-/

/-- The side of the aircraft the sun is on. -/
inductive SunSide where
  | left
  | right
  | ahead
  | behind
deriving DecidableEq

/-- The classification outputs of `sampleFlightAt(plan, t).sun` used by the
summary: the daylight status and the side of the aircraft. -/
structure SampleClass where
  status : DaylightStatus
  side : SunSide

/-- Embeds `FlightSunSummaryOptions`. -/
structure FlightSunSummaryOptions where
  intervalTargetMinutes : Option ℚ := none
  minIntervals : Option ℚ := none
  maxIntervals : Option ℚ := none

/-- The direction-bucket accumulator `bucketMillis`. -/
structure DirMillis where
  left : ℤ
  right : ℤ
  ahead : ℤ
  behind : ℤ
  night : ℤ

/-- The daylight-bucket accumulator `statusMillis`. -/
structure DayMillis where
  day : ℤ
  twilight : ℤ
  night : ℤ

/-- `bucketMillis[bucket] += span` with the source's bucket choice:
the `night` bucket when the status is night, otherwise the side bucket. -/
def bumpDir (d : DirMillis) (c : SampleClass) (span : ℤ) : DirMillis :=
  match c.status with
  | .night => { d with night := d.night + span }
  | _ =>
    match c.side with
    | .left => { d with left := d.left + span }
    | .right => { d with right := d.right + span }
    | .ahead => { d with ahead := d.ahead + span }
    | .behind => { d with behind := d.behind + span }

/-- `statusMillis[sample.sun.status] += span`. -/
def bumpDay (d : DayMillis) (st : DaylightStatus) (span : ℤ) : DayMillis :=
  match st with
  | .day => { d with day := d.day + span }
  | .twilight => { d with twilight := d.twilight + span }
  | .night => { d with night := d.night + span }

/-- One iteration of the interval loop of `computeFlightSunSummary`.
`Math.floor` of the non-negative quotients is integer division. -/
def summaryStep (departureUtc totalMillis intervals : ℤ) (sampler : ℚ → SampleClass)
    (acc : DirMillis × DayMillis) (i : ℕ) : DirMillis × DayMillis :=
  let start := departureUtc + ((i : ℤ) * totalMillis) / intervals
  let stop := departureUtc + (((i : ℤ) + 1) * totalMillis) / intervals
  let span := stop - start
  if span ≤ 0 then acc
  else
    let midUtcMillis : ℚ := (start : ℚ) + (span : ℚ) / 2
    let t : ℚ := (midUtcMillis - (departureUtc : ℚ)) / (totalMillis : ℚ)
    let sample := sampler t
    (bumpDir acc.1 sample span, bumpDay acc.2 sample.status span)

/-- The bucketed summary record; bucket lists are in `BUCKET_ORDER` and
`DAYLIGHT_ORDER`. -/
structure FlightSunSummary where
  totalMillis : ℤ
  totalMinutes : ℤ
  bucketMillis : List ℤ
  bucketFractions : List ℚ
  bucketPercent : List ℤ
  bucketMinutes : List ℤ
  daylightMillis : List ℤ
  daylightFractions : List ℚ
  daylightPercent : List ℤ
  daylightMinutes : List ℤ

/-- Embeds `computeFlightSunSummary(plan, options)`; `sampler t` abstracts
`sampleFlightAt(plan, t).sun` (status and side), which the source computes
through the SunCalc ephemeris.  `Math.round` of the integer quantities
`totalMillisRaw` and `plan.durationMinutes` is the identity. -/
def computeFlightSunSummary (plan : FlightPlan) (sampler : ℚ → SampleClass)
    (options : FlightSunSummaryOptions) : FlightSunSummary :=
  let totalMillis := max 0 (plan.arrivalUtc - plan.departureUtc)
  let totalMinutes := max 0 plan.durationMinutes
  if totalMillis ≤ 0 then
    { totalMillis := totalMillis, totalMinutes := totalMinutes,
      bucketMillis := [0, 0, 0, 0, 0], bucketFractions := [0, 0, 0, 0, 0],
      bucketPercent := [0, 0, 0, 0, 0], bucketMinutes := [0, 0, 0, 0, 0],
      daylightMillis := [0, 0, 0], daylightFractions := [0, 0, 0],
      daylightPercent := [0, 0, 0], daylightMinutes := [0, 0, 0] }
  else
    let intervalTargetMinutes : ℚ :=
      match options.intervalTargetMinutes with
      | some v => if 0 < v then v else 2
      | none => 2
    let minIntervals : ℤ :=
      match options.minIntervals with
      | some v => if 0 < v then ⌊v⌋ else 180
      | none => 180
    let maxIntervals : ℤ :=
      match options.maxIntervals with
      | some v => if 0 < v then ⌊v⌋ else 5000
      | none => 5000
    let totalMinutesExact : ℚ := (totalMillis : ℚ) / 60000
    let targetIntervals : ℤ := max 1 ⌈totalMinutesExact / intervalTargetMinutes⌉
    let intervals0 := clampInt (JsNum.num ((max minIntervals targetIntervals : ℤ) : ℚ)) 1 maxIntervals
    let intervals := min intervals0 (max 1 totalMillis)
    let acc := (List.range intervals.toNat).foldl
      (summaryStep plan.departureUtc totalMillis intervals sampler)
      (⟨0, 0, 0, 0, 0⟩, ⟨0, 0, 0⟩)
    let bucketMillisL := [acc.1.left, acc.1.right, acc.1.ahead, acc.1.behind, acc.1.night]
    let statusMillisL := [acc.2.day, acc.2.twilight, acc.2.night]
    let percentExact := bucketMillisL.map fun m => ((m : ℚ) / (totalMillis : ℚ)) * 100
    let percentRounded :=
      allocatePercentagesWithMinimum (percentExact.map JsNum.num) (JsNum.num 100) (JsNum.num 1)
    let minutesExact := bucketMillisL.map fun m => (m : ℚ) / 60000
    let minutesRounded :=
      allocateByLargestRemainder (minutesExact.map JsNum.num) (JsNum.num (totalMinutes : ℚ))
    let daylightPercentExact := statusMillisL.map fun m => ((m : ℚ) / (totalMillis : ℚ)) * 100
    let daylightPercentRounded :=
      allocatePercentagesWithMinimum (daylightPercentExact.map JsNum.num) (JsNum.num 100)
        (JsNum.num 1)
    let daylightMinutesExact := statusMillisL.map fun m => (m : ℚ) / 60000
    let daylightMinutesRounded :=
      allocateByLargestRemainder (daylightMinutesExact.map JsNum.num)
        (JsNum.num (totalMinutes : ℚ))
    { totalMillis := totalMillis, totalMinutes := totalMinutes,
      bucketMillis := bucketMillisL,
      bucketFractions := bucketMillisL.map fun m => (m : ℚ) / (totalMillis : ℚ),
      bucketPercent := percentRounded,
      bucketMinutes := minutesRounded,
      daylightMillis := statusMillisL,
      daylightFractions := statusMillisL.map fun m => (m : ℚ) / (totalMillis : ℚ),
      daylightPercent := daylightPercentRounded,
      daylightMinutes := daylightMinutesRounded }

/-! ### General list bookkeeping lemmas -/

theorem getD_set_self {l : List ℤ} {i : ℕ} (h : i < l.length) (v : ℤ) :
    (l.set i v).getD i 0 = v := by
  rw [List.getD_eq_getElem?_getD, List.getElem?_set_self h]
  rfl

theorem getD_set_ne {l : List ℤ} {i j : ℕ} (h : i ≠ j) (v : ℤ) :
    (l.set i v).getD j 0 = l.getD j 0 := by
  rw [List.getD_eq_getElem?_getD, List.getElem?_set_ne h, ← List.getD_eq_getElem?_getD]

theorem sumZ_set {l : List ℤ} {i : ℕ} (h : i < l.length) (v : ℤ) :
    (l.set i v).sum = l.sum - l.getD i 0 + v := by
  have h1 := List.sum_set l i v
  have h2 := List.sum_take_add_sum_drop l i
  have h3 : List.drop i l = l.getD i 0 :: List.drop (i + 1) l := by
    rw [List.getD_eq_getElem l 0 h]
    exact List.drop_eq_getElem_cons h
  rw [h3, List.sum_cons] at h2
  rw [h1, if_pos h]
  omega

theorem listSum_eq_rangeSum (l : List ℤ) :
    l.sum = ∑ i ∈ Finset.range l.length, l.getD i 0 := by
  induction l with
  | nil => simp
  | cons a t ih =>
    rw [List.sum_cons, List.length_cons, Finset.sum_range_succ', ih]
    simp [List.getD, add_comm]

theorem mapSum_eq_rangeSum {α : Type} (f : α → ℤ) (l : List α) (d : α) :
    (l.map f).sum = ∑ i ∈ Finset.range l.length, f (l.getD i d) := by
  induction l with
  | nil => simp
  | cons a t ih =>
    rw [List.map_cons, List.sum_cons, List.length_cons, Finset.sum_range_succ', ih]
    simp [List.getD, add_comm]

theorem filterMap_sum {α : Type} (l : List α) (P : α → Bool) (f : α → ℤ) :
    ((l.filter P).map f).sum = (l.map fun a => if P a then f a else 0).sum := by
  induction l with
  | nil => simp
  | cons a t ih =>
    by_cases h : P a <;> simp [List.filter_cons, h, ih]

theorem countP_eq_rangeSum {α : Type} (l : List α) (P : α → Bool) (d : α) :
    (l.countP P : ℤ) = ∑ i ∈ Finset.range l.length, (if P (l.getD i d) then (1 : ℤ) else 0) := by
  induction l with
  | nil => simp
  | cons a t ih =>
    rw [List.countP_cons, List.length_cons, Finset.sum_range_succ']
    push_cast
    rw [ih]
    by_cases h : P a <;> simp [List.getD, h]

theorem zip_getD {α β : Type} (l1 : List α) (l2 : List β) (i : ℕ) (d1 : α) (d2 : β)
    (h : i < l1.length) (h2 : i < l2.length) :
    (l1.zip l2).getD i (d1, d2) = (l1.getD i d1, l2.getD i d2) := by
  have hz : i < (l1.zip l2).length := by rw [List.length_zip]; omega
  rw [List.getD_eq_getElem _ _ hz, List.getD_eq_getElem _ _ h, List.getD_eq_getElem _ _ h2]
  exact List.getElem_zip

/-! ### Length, non-negativity and sum facts for the allocator phases -/

theorem length_bumpAt (base : List ℤ) (i : ℕ) : (bumpAt base i).length = base.length := by
  simp [bumpAt]

theorem length_distributeAdd (order : List ℕ) (k r : ℕ) (base : List ℤ) :
    (distributeAdd order k r base).length = base.length := by
  induction r generalizing k base with
  | zero => rfl
  | succ r ih => rw [distributeAdd, ih, length_bumpAt]

theorem length_decPass (order : List ℕ) (remaining : ℤ) (base : List ℤ) (changed : Bool) :
    (decPass order remaining base changed).1.length = base.length := by
  induction order generalizing remaining base changed with
  | nil => rfl
  | cons i rest ih =>
    rw [decPass]
    by_cases h : remaining = 0
    · simp [h]
    · rw [if_neg h]
      by_cases h2 : base.getD i 0 ≤ 0
      · rw [if_pos h2, ih]
      · rw [if_neg h2, ih, List.length_set]

theorem length_decWhile (order : List ℕ) (fuel : ℕ) (remaining : ℤ) (base : List ℤ) :
    (decWhile order fuel remaining base).length = base.length := by
  induction fuel generalizing remaining base with
  | zero => rfl
  | succ fuel ih =>
    rw [decWhile]
    by_cases h : remaining ≤ 0
    · rw [if_pos h]
    · rw [if_neg h]
      have hp := length_decPass order remaining base false
      rcases hd : decPass order remaining base false with ⟨base2, remaining2, changed⟩
      rw [hd] at hp
      by_cases hc : changed
      · simp only [hc, if_true, ih, hp]
      · simp only [hc, if_false, hp]
        simp [hc] at hp ⊢
        exact hp

theorem length_takeDown (base : List ℤ) (remaining : ℤ) :
    (takeDown base remaining).length = base.length := by
  induction base generalizing remaining with
  | nil => rfl
  | cons b rest ih =>
    rw [takeDown]
    by_cases h : remaining ≤ 0
    · rw [if_pos h]
    · rw [if_neg h, List.length_cons, List.length_cons, ih]

theorem nonneg_bumpAt {base : List ℤ} (h : ∀ x ∈ base, 0 ≤ x) (i : ℕ) :
    ∀ x ∈ bumpAt base i, 0 ≤ x := by
  by_cases hi : i < base.length
  · intro x hx
    rcases List.mem_or_eq_of_mem_set hx with h2 | h2
    · exact h x h2
    · have hm : base.getD i 0 ∈ base := by
        rw [List.getD_eq_getElem _ _ hi]
        exact base.getElem_mem hi
      have := h _ hm
      omega
  · rw [bumpAt, List.set_eq_of_length_le (by omega)]
    exact h

theorem nonneg_distributeAdd {base : List ℤ} (h : ∀ x ∈ base, 0 ≤ x)
    (order : List ℕ) (k r : ℕ) :
    ∀ x ∈ distributeAdd order k r base, 0 ≤ x := by
  induction r generalizing k base with
  | zero => exact h
  | succ r ih =>
    rw [distributeAdd]
    exact ih (nonneg_bumpAt h _) _

theorem nonneg_decPass {base : List ℤ} (h : ∀ x ∈ base, 0 ≤ x)
    (order : List ℕ) (remaining : ℤ) (changed : Bool) :
    ∀ x ∈ (decPass order remaining base changed).1, 0 ≤ x := by
  induction order generalizing remaining base changed with
  | nil => exact h
  | cons i rest ih =>
    rw [decPass]
    by_cases hr : remaining = 0
    · simpa [hr] using h
    · rw [if_neg hr]
      by_cases h2 : base.getD i 0 ≤ 0
      · rw [if_pos h2]; exact ih h _ _
      · rw [if_neg h2]
        refine ih ?_ _ _
        intro x hx
        rcases List.mem_or_eq_of_mem_set hx with h3 | h3
        · exact h x h3
        · omega

theorem nonneg_decWhile {base : List ℤ} (h : ∀ x ∈ base, 0 ≤ x)
    (order : List ℕ) (fuel : ℕ) (remaining : ℤ) :
    ∀ x ∈ decWhile order fuel remaining base, 0 ≤ x := by
  induction fuel generalizing remaining base with
  | zero => exact h
  | succ fuel ih =>
    rw [decWhile]
    by_cases hr : remaining ≤ 0
    · rw [if_pos hr]; exact h
    · rw [if_neg hr]
      have hp := nonneg_decPass h order remaining false
      rcases hd : decPass order remaining base false with ⟨base2, remaining2, changed⟩
      rw [hd] at hp
      by_cases hc : changed
      · simp only [hc, if_true]
        exact ih hp _
      · simp only [hc, if_false]
        simpa [hc] using hp

theorem nonneg_takeDown (base : List ℤ) (remaining : ℤ) (h : ∀ x ∈ base, 0 ≤ x) :
    ∀ x ∈ takeDown base remaining, 0 ≤ x := by
  induction base generalizing remaining with
  | nil => exact h
  | cons b rest ih =>
    rw [takeDown]
    by_cases hr : remaining ≤ 0
    · rw [if_pos hr]; exact h
    · rw [if_neg hr]
      intro x hx
      have hb : 0 ≤ b := h b (List.mem_cons_self b rest)
      rcases List.mem_cons.mp hx with h2 | h2
      · have : min b remaining ≤ b := min_le_left _ _
        omega
      · exact ih _ (fun y hy => h y (List.mem_cons_of_mem _ hy)) x h2

theorem sum_takeDown {base : List ℤ} (h : ∀ x ∈ base, 0 ≤ x) {remaining : ℤ}
    (h0 : 0 ≤ remaining) (h1 : remaining ≤ base.sum) :
    (takeDown base remaining).sum = base.sum - remaining := by
  induction base generalizing remaining with
  | nil =>
    simp only [takeDown, List.sum_nil]
    simp at h1
    omega
  | cons b rest ih =>
    rw [takeDown]
    by_cases hr : remaining ≤ 0
    · rw [if_pos hr]; omega
    · rw [if_neg hr, List.sum_cons, List.sum_cons]
      have hb : 0 ≤ b := h b (List.mem_cons_self b rest)
      have hrest : ∀ x ∈ rest, 0 ≤ x := fun y hy => h y (List.mem_cons_of_mem _ hy)
      have hrsum : 0 ≤ rest.sum := List.sum_nonneg hrest
      have hrs : remaining - min b remaining ≤ rest.sum := by
        rw [List.sum_cons] at h1
        rcases min_cases b remaining with ⟨he, _⟩ | ⟨he, _⟩ <;> omega
      have h0' : (0 : ℤ) ≤ remaining - min b remaining := by omega
      have := ih hrest h0' hrs
      rw [this]
      omega

theorem safePos_nonneg (v : JsNum) : 0 ≤ safePos v := by
  rcases v with q | _ | _ | _ <;> simp [safePos]
  by_cases h : 0 < q
  · rw [if_pos h]; exact le_of_lt h
  · rw [if_neg h]

theorem clampInt_nonneg {hi : ℤ} (value : JsNum) (h : 0 ≤ hi) : 0 ≤ clampInt value 0 hi := by
  rcases value with q | _ | _ | _
  · exact le_min h (le_max_left _ _)
  · exact le_refl 0
  · exact le_refl 0
  · exact le_refl 0

theorem length_lrBase2 (safe : List ℚ) (target : ℤ) :
    (lrBase2 safe target).length = safe.length := by
  unfold lrBase2
  dsimp only
  split_ifs
  · rw [length_distributeAdd, List.length_map]
  · rw [length_decWhile, List.length_map]
  · rw [List.length_map]

theorem nonneg_lrBase2 (safe : List ℚ) (target : ℤ) (h : ∀ q ∈ safe, 0 ≤ q) :
    ∀ x ∈ lrBase2 safe target, 0 ≤ x := by
  have hbase : ∀ x ∈ safe.map fun v => ⌊v⌋, (0:ℤ) ≤ x := by
    intro x hx
    rcases List.mem_map.mp hx with ⟨q, hq, he⟩
    subst he
    exact Int.floor_nonneg.mpr (h q hq)
  unfold lrBase2
  dsimp only
  split_ifs
  · exact nonneg_distributeAdd hbase _ _ _
  · exact nonneg_decWhile hbase _ _ _
  · exact hbase

theorem length_lrCore (safe : List ℚ) (target : ℤ) :
    (lrCore safe target).length = safe.length := by
  unfold lrCore
  dsimp only
  split_ifs
  · rw [List.length_set, length_lrBase2]
  · rw [length_takeDown, length_lrBase2]
  · rw [length_lrBase2]

theorem nonneg_lrCore (safe : List ℚ) (target : ℤ) (h : ∀ q ∈ safe, 0 ≤ q) (ht : 0 ≤ target) :
    ∀ x ∈ lrCore safe target, 0 ≤ x := by
  have hb2 := nonneg_lrBase2 safe target h
  unfold lrCore
  dsimp only
  split_ifs with h1 h2
  · intro x hx
    rcases List.mem_or_eq_of_mem_set hx with h3 | h3
    · exact hb2 x h3
    · have hlen : 0 < (lrBase2 safe target).length := by
        rcases h1 with ⟨_, hne⟩
        exact List.length_pos.mpr hne
      have hm : (lrBase2 safe target).getD 0 0 ∈ lrBase2 safe target := by
        rw [List.getD_eq_getElem _ _ hlen]
        exact List.getElem_mem hlen
      have := hb2 _ hm
      omega
  · exact nonneg_takeDown _ _ hb2
  · exact hb2

theorem sum_lrCore (safe : List ℚ) (target : ℤ) (hne : safe ≠ [])
    (h : ∀ q ∈ safe, 0 ≤ q) (ht : 0 ≤ target) :
    (lrCore safe target).sum = target := by
  have hb2 := nonneg_lrBase2 safe target h
  have hlen : 0 < (lrBase2 safe target).length := by
    rw [length_lrBase2]
    exact List.length_pos.mpr hne
  have hb2ne : lrBase2 safe target ≠ [] := by
    intro hc
    rw [hc] at hlen
    simp at hlen
  unfold lrCore
  dsimp only
  split_ifs with h1 h2
  · rw [sumZ_set hlen]
    omega
  · have hsum : 0 ≤ (lrBase2 safe target).sum := List.sum_nonneg hb2
    rw [sum_takeDown hb2 (by omega) (by omega)]
    omega
  · simp only [not_and_or] at h1 h2
    rcases h1 with h1 | h1
    · rcases h2 with h2 | h2
      · omega
      · exact absurd hb2ne (by simpa using h2)
    · exact absurd hb2ne (by simpa using h1)

theorem length_allocateByLargestRemainder (xs : List JsNum) (total : JsNum) :
    (allocateByLargestRemainder xs total).length = xs.length := by
  unfold allocateByLargestRemainder
  dsimp only
  split_ifs
  · rw [List.length_map]
  · rw [length_lrCore, List.length_map]

theorem nonneg_allocateByLargestRemainder (xs : List JsNum) (total : JsNum) :
    ∀ x ∈ allocateByLargestRemainder xs total, 0 ≤ x := by
  unfold allocateByLargestRemainder
  dsimp only
  split_ifs
  · intro x hx
    rcases List.mem_map.mp hx with ⟨_, _, he⟩
    omega
  · exact nonneg_lrCore _ _ (by
      intro q hq
      rcases List.mem_map.mp hq with ⟨v, _, he⟩
      subst he
      exact safePos_nonneg v)
      (clampInt_nonneg total (by unfold MAX_SAFE_INTEGER; omega))

theorem sum_allocateByLargestRemainder (xs : List JsNum) (total : JsNum) (hne : xs ≠ []) :
    (allocateByLargestRemainder xs total).sum = clampInt total 0 MAX_SAFE_INTEGER := by
  unfold allocateByLargestRemainder
  dsimp only
  split_ifs with h0
  · rw [h0]
    induction xs with
    | nil => simp
    | cons a t ih => simp
  · refine sum_lrCore _ _ ?_ ?_ ?_
    · intro hc
      exact hne (List.map_eq_nil_iff.mp hc)
    · intro q hq
      rcases List.mem_map.mp hq with ⟨v, _, he⟩
      subst he
      exact safePos_nonneg v
    · exact clampInt_nonneg total (by unfold MAX_SAFE_INTEGER; omega)

/-! ### Characterization of the positive-deficit distribution under exact sums -/

theorem listSum_eq_rangeSum' {M : Type} [AddCommMonoid M] (l : List M) (d : M) :
    l.sum = ∑ i ∈ Finset.range l.length, l.getD i d := by
  induction l with
  | nil => simp
  | cons a t ih =>
    rw [List.sum_cons, List.length_cons, Finset.sum_range_succ', ih]
    simp [List.getD, add_comm]

theorem sum_lt_length (l : List ℚ) (h : ∀ x ∈ l, x < 1) (hne : l ≠ []) :
    l.sum < l.length := by
  induction l with
  | nil => exact absurd rfl hne
  | cons a t ih =>
    rw [List.sum_cons, List.length_cons]
    have h1 : a < 1 := h a (List.mem_cons_self a t)
    by_cases ht : t = []
    · subst ht
      simpa using h1
    · have h2 : t.sum < t.length := ih (fun x hx => h x (List.mem_cons_of_mem _ hx)) ht
      push_cast
      linarith

theorem distributeAdd_eq_take_drop (order : List ℕ) (k r : ℕ) (base : List ℤ)
    (h : k + r ≤ order.length) :
    distributeAdd order k r base = ((order.drop k).take r).foldl bumpAt base := by
  induction r generalizing k base with
  | zero => simp [distributeAdd]
  | succ r ih =>
    have hk : k < order.length := by omega
    rw [distributeAdd, Nat.mod_eq_of_lt hk, ih (k + 1) _ (by omega),
      List.drop_eq_getElem_cons hk, List.take_succ_cons, List.foldl_cons,
      List.getD_eq_getElem _ _ hk]

theorem foldl_bump_length (js : List ℕ) (base : List ℤ) :
    (js.foldl bumpAt base).length = base.length := by
  induction js generalizing base with
  | nil => rfl
  | cons j t ih => rw [List.foldl_cons, ih, length_bumpAt]

theorem foldl_bump_getD (js : List ℕ) (base : List ℤ) (hnd : js.Nodup)
    (hb : ∀ j ∈ js, j < base.length) (i : ℕ) :
    (js.foldl bumpAt base).getD i 0 = base.getD i 0 + (if i ∈ js then 1 else 0) := by
  induction js generalizing base with
  | nil => simp
  | cons j t ih =>
    rw [List.foldl_cons]
    have hnd2 : t.Nodup := (List.nodup_cons.mp hnd).2
    have hjt : j ∉ t := (List.nodup_cons.mp hnd).1
    have hbj : j < base.length := hb j (List.mem_cons_self j t)
    have hb2 : ∀ x ∈ t, x < (bumpAt base j).length := by
      intro x hx
      rw [length_bumpAt]
      exact hb x (List.mem_cons_of_mem _ hx)
    rw [ih _ hnd2 hb2]
    by_cases hij : i = j
    · subst hij
      rw [bumpAt, getD_set_self hbj]
      have hit : i ∉ t := hjt
      simp [hit]
    · rw [bumpAt, getD_set_ne (fun hc => hij hc.symm)]
      by_cases hit : i ∈ t <;> simp [hit, List.mem_cons, hij]

theorem foldl_bump_sum (js : List ℕ) (base : List ℤ) (hb : ∀ j ∈ js, j < base.length) :
    (js.foldl bumpAt base).sum = base.sum + js.length := by
  induction js generalizing base with
  | nil => simp
  | cons j t ih =>
    have hbj : j < base.length := hb j (List.mem_cons_self j t)
    have hb2 : ∀ x ∈ t, x < (bumpAt base j).length := by
      intro x hx
      rw [length_bumpAt]
      exact hb x (List.mem_cons_of_mem _ hx)
    rw [List.foldl_cons, ih _ hb2, bumpAt, sumZ_set hbj, List.length_cons]
    push_cast
    ring

/-- Facts about the sorted-index list used by the positive-deficit branch. -/
theorem sortedIdx_facts (safe : List ℚ) :
    ((indexedFracs safe).insertionSort remOrderDesc).Perm (indexedFracs safe) ∧
    (((indexedFracs safe).insertionSort remOrderDesc).map Prod.fst).Perm
      (List.range safe.length) ∧
    (((indexedFracs safe).insertionSort remOrderDesc).map Prod.fst).Nodup := by
  have hperm := List.perm_insertionSort remOrderDesc (indexedFracs safe)
  have hmapfst : (indexedFracs safe).map Prod.fst = List.range safe.length := by
    unfold indexedFracs
    rw [List.map_map]
    have : (Prod.fst ∘ fun p : ℕ × ℚ => (p.1, p.2 - ⌊p.2⌋)) = Prod.fst := rfl
    rw [this, List.enum_map_fst]
  have hpermfst := hperm.map Prod.fst
  rw [hmapfst] at hpermfst
  exact ⟨hperm, hpermfst, (List.nodup_range _).perm hpermfst.symm⟩

/-- Membership in `indexedFracs` determines the fractional value from the index. -/
theorem mem_indexedFracs {safe : List ℚ} {i : ℕ} {f : ℚ}
    (h : (i, f) ∈ indexedFracs safe) :
    i < safe.length ∧ f = safe.getD i 0 - ⌊safe.getD i 0⌋ := by
  unfold indexedFracs at h
  rcases List.mem_map.mp h with ⟨p, hp, he⟩
  have h1 := List.mem_enum_iff_getElem?.mp hp
  have hi : p.1 = i := congrArg Prod.fst he
  have hv : p.2 - ⌊p.2⌋ = f := congrArg Prod.snd he
  subst hi
  have hlt : p.1 < safe.length := by
    by_contra hc
    rw [List.getElem?_eq_none (by omega)] at h1
    exact Option.noConfusion h1
  have : safe[p.1] = p.2 := by
    rw [List.getElem?_eq_getElem hlt] at h1
    injection h1
  refine ⟨hlt, ?_⟩
  rw [List.getD_eq_getElem _ _ hlt, this]
  exact hv.symm

theorem sum_map_fract (l : List ℚ) :
    (l.map fun q => q - (⌊q⌋ : ℚ)).sum = l.sum - (((l.map fun v => ⌊v⌋).sum : ℤ) : ℚ) := by
  induction l with
  | nil => simp
  | cons a t ih =>
    simp only [List.map_cons, List.sum_cons, ih]
    push_cast
    ring

theorem indexedFracs_map_snd (safe : List ℚ) :
    (indexedFracs safe).map Prod.snd = safe.map fun q => q - (⌊q⌋ : ℚ) := by
  unfold indexedFracs
  rw [List.map_map]
  have h1 : (Prod.snd ∘ fun p : ℕ × ℚ => (p.1, p.2 - ⌊p.2⌋)) =
      (fun q => q - (⌊q⌋ : ℚ)) ∘ Prod.snd := rfl
  rw [h1, ← List.map_map, List.enum_map_snd]

theorem indexedFracs_length (safe : List ℚ) :
    (indexedFracs safe).length = safe.length := by
  unfold indexedFracs
  rw [List.length_map, List.enum_length]

/-- The floors of the sanitized values sum to at most the exact total. -/
theorem floorSum_le (safe : List ℚ) (target : ℤ) (hsum : safe.sum = (target : ℚ)) :
    (safe.map fun v => ⌊v⌋).sum ≤ target := by
  have hcast : (((safe.map fun v => ⌊v⌋).sum : ℤ) : ℚ) ≤ safe.sum := by
    rw [Int.cast_list_sum, List.map_map]
    have := List.sum_le_sum (l := safe) (f := fun v => ((⌊v⌋ : ℤ) : ℚ)) (g := fun v => v)
      (fun i _ => Int.floor_le i)
    simpa using this
  rw [hsum] at hcast
  exact_mod_cast hcast

theorem lrBase2_eq_zero_case (safe : List ℚ) (target : ℤ)
    (h : target - (safe.map fun v => ⌊v⌋).sum = 0) :
    lrBase2 safe target = safe.map fun v => ⌊v⌋ := by
  unfold lrBase2
  dsimp only
  rw [h]
  norm_num

theorem lrBase2_eq_pos_case (safe : List ℚ) (target : ℤ)
    (h : 0 < target - (safe.map fun v => ⌊v⌋).sum) :
    lrBase2 safe target =
      distributeAdd (((indexedFracs safe).insertionSort remOrderDesc).map Prod.fst) 0
        (target - (safe.map fun v => ⌊v⌋).sum).toNat (safe.map fun v => ⌊v⌋) := by
  unfold lrBase2
  dsimp only
  rw [if_pos h]

/-- In a descending list of values in `[0, 1)` summing to the integer `D`, the
first `D` entries are strictly positive. -/
theorem prefix_pos_of_sorted_desc (l : List ℚ) (D : ℤ)
    (hsort : l.Pairwise fun a b => b ≤ a)
    (h01 : ∀ x ∈ l, 0 ≤ x ∧ x < 1)
    (hsum : l.sum = (D : ℚ)) :
    ∀ j, j < D.toNat → ∃ hj : j < l.length, 0 < l.get ⟨j, hj⟩ := by
  intro j hj
  have hDpos : 0 < D := by omega
  have hne : l ≠ [] := by
    rintro rfl
    rw [List.sum_nil] at hsum
    have : (D:ℚ) = 0 := hsum.symm
    have : D = 0 := by exact_mod_cast this
    omega
  have hDlt : (D : ℚ) < l.length := by
    rw [← hsum]
    exact sum_lt_length l (fun x hx => (h01 x hx).2) hne
  have hDlen : D < (l.length : ℤ) := by exact_mod_cast hDlt
  have hjlen : j < l.length := by omega
  refine ⟨hjlen, ?_⟩
  by_contra hc
  push_neg at hc
  have hj0 : l.get ⟨j, hjlen⟩ = 0 :=
    le_antisymm hc (h01 _ (l.get_mem _ _)).1
  have hformula := listSum_eq_rangeSum' l 0
  have hsplit : ∑ m ∈ Finset.Ico 0 j, l.getD m 0 + ∑ m ∈ Finset.Ico j l.length, l.getD m 0 =
      ∑ m ∈ Finset.Ico 0 l.length, l.getD m 0 :=
    Finset.sum_Ico_consecutive _ (by omega) (by omega)
  have hdrop : ∑ m ∈ Finset.Ico j l.length, l.getD m 0 ≤ 0 := by
    refine Finset.sum_nonpos ?_
    intro m hm
    rcases Finset.mem_Ico.mp hm with ⟨hm1, hm2⟩
    rcases eq_or_lt_of_le hm1 with he | hlt
    · rw [← he, List.getD_eq_get _ _ hjlen, hj0]
    · have hsort' : List.Sorted (fun a b : ℚ => b ≤ a) l := hsort
      have := hsort'.rel_get_of_lt (a := ⟨j, hjlen⟩) (b := ⟨m, hm2⟩) hlt
      rw [List.getD_eq_get _ _ hm2]
      rw [hj0] at this
      exact this
  have htake : ∑ m ∈ Finset.Ico 0 j, l.getD m 0 < j ∨
      (j = 0 ∧ ∑ m ∈ Finset.Ico 0 j, l.getD m 0 = 0) := by
    rcases Nat.eq_zero_or_pos j with hj0' | hjpos
    · right
      subst hj0'
      simp
    · left
      have := Finset.sum_lt_sum_of_nonempty (s := Finset.Ico 0 j)
        (f := fun m => l.getD m 0) (g := fun _ => (1:ℚ))
        (by rw [Finset.nonempty_Ico]; omega)
        (by
          intro m hm
          rcases Finset.mem_Ico.mp hm with ⟨_, hm2⟩
          have hmlen : m < l.length := by omega
          show l.getD m 0 < (1:ℚ)
          rw [List.getD_eq_get _ _ hmlen]
          exact (h01 _ (l.get_mem _ _)).2)
      rw [Finset.sum_const, Nat.card_Ico] at this
      simpa using this
  have hD_eq : (D : ℚ) = ∑ m ∈ Finset.Ico 0 l.length, l.getD m 0 := by
    rw [← hsum, hformula, Finset.range_eq_Ico]
  have hjQ : ((j : ℤ) : ℚ) < (D : ℚ) := by
    have : (j : ℤ) < D := by omega
    exact_mod_cast this
  rcases htake with ht | ⟨hj0', ht⟩
  · have : (D:ℚ) < j + 0 := by
      rw [hD_eq, ← hsplit]
      exact add_lt_add_of_lt_of_le ht hdrop
    push_cast at this hjQ
    linarith
  · have : (D:ℚ) ≤ 0 := by
      rw [hD_eq, ← hsplit, ht, zero_add]
      exact hdrop
    have : D ≤ 0 := by exact_mod_cast this
    omega

/-- Under exact inputs (non-negative rationals summing to the positive target),
the distribution stage of the allocator already sums to the target, and
entries whose exact value is `0` stay `0`. -/
theorem lrBase2_exact (safe : List ℚ) (target : ℤ)
    (hnn : ∀ q ∈ safe, 0 ≤ q) (hsum : safe.sum = (target : ℚ)) (hpos : 0 < target) :
    (lrBase2 safe target).sum = target ∧
    (∀ i, i < safe.length → safe.getD i 0 = 0 → (lrBase2 safe target).getD i 0 = 0) := by
  have hle := floorSum_le safe target hsum
  have hgetbase : ∀ i, i < safe.length →
      (safe.map fun v => ⌊v⌋).getD i 0 = ⌊safe.getD i 0⌋ := by
    intro i hi
    have := List.getD_map safe (0 : ℚ) (n := i) (fun v => ⌊v⌋)
    rw [Int.floor_zero] at this
    exact this
  rcases eq_or_lt_of_le hle with heq | hlt
  · -- zero deficit: the distribution stage is the floor list itself
    have h0 : target - (safe.map fun v => ⌊v⌋).sum = 0 := by omega
    rw [lrBase2_eq_zero_case safe target h0]
    constructor
    · omega
    · intro i hi hz
      rw [hgetbase i hi, hz, Int.floor_zero]
  · -- positive deficit
    have hD : 0 < target - (safe.map fun v => ⌊v⌋).sum := by omega
    rw [lrBase2_eq_pos_case safe target hD]
    rcases sortedIdx_facts safe with ⟨hperm, hpermfst, hnodup⟩
    have hsortlen : ((indexedFracs safe).insertionSort remOrderDesc).length = safe.length := by
      rw [List.length_insertionSort, indexedFracs_length]
    have horderlen :
        (((indexedFracs safe).insertionSort remOrderDesc).map Prod.fst).length = safe.length := by
      rw [List.length_map, hsortlen]
    have hordermem : ∀ j ∈ ((indexedFracs safe).insertionSort remOrderDesc).map Prod.fst,
        j < safe.length := by
      intro j hjmem
      have := hpermfst.mem_iff.mp hjmem
      exact List.mem_range.mp this
    -- the snd values of the sorted list
    have hsndsum :
        (((indexedFracs safe).insertionSort remOrderDesc).map Prod.snd).sum =
          ((target - (safe.map fun v => ⌊v⌋).sum : ℤ) : ℚ) := by
      rw [(hperm.map Prod.snd).sum_eq, indexedFracs_map_snd, sum_map_fract, hsum]
      push_cast
      ring
    have hsnd01 : ∀ x ∈ ((indexedFracs safe).insertionSort remOrderDesc).map Prod.snd,
        0 ≤ x ∧ x < 1 := by
      intro x hx
      rcases List.mem_map.mp hx with ⟨p, hp, he⟩
      subst he
      have hpmem : p ∈ indexedFracs safe := hperm.mem_iff.mp hp
      rcases mem_indexedFracs (i := p.1) (f := p.2) (by simpa using hpmem) with ⟨_, hf⟩
      rw [hf, Int.self_sub_floor]
      exact ⟨Int.fract_nonneg _, Int.fract_lt_one _⟩
    have hsndsorted :
        (((indexedFracs safe).insertionSort remOrderDesc).map Prod.snd).Pairwise
          fun a b => b ≤ a := by
      have hs := List.sorted_insertionSort remOrderDesc (indexedFracs safe)
      rw [List.pairwise_map]
      refine hs.imp ?_
      intro a b hab
      rcases hab with h | ⟨h, _⟩
      · exact le_of_lt h
      · exact le_of_eq h.symm
    have hprefix := prefix_pos_of_sorted_desc _ _ hsndsorted hsnd01 hsndsum
    -- D bounded by the length
    have hDlt : (target - (safe.map fun v => ⌊v⌋).sum) < (safe.length : ℤ) := by
      have hlenne : ((indexedFracs safe).insertionSort remOrderDesc).map Prod.snd ≠ [] := by
        intro hc
        have := congrArg List.length hc
        rw [List.length_map, hsortlen] at this
        simp only [List.length_nil] at this
        have hsafe : safe = [] := List.length_eq_zero.mp this
        subst hsafe
        rw [List.sum_nil] at hsum
        have : target = 0 := by exact_mod_cast hsum.symm
        omega
      have := sum_lt_length _ (fun x hx => (hsnd01 x hx).2) hlenne
      rw [hsndsum, List.length_map, hsortlen] at this
      exact_mod_cast this
    have hDle : (target - (safe.map fun v => ⌊v⌋).sum).toNat ≤
        (((indexedFracs safe).insertionSort remOrderDesc).map Prod.fst).length := by
      rw [horderlen]
      omega
    rw [distributeAdd_eq_take_drop _ 0 _ _ (by omega), List.drop_zero]
    have htakemem : ∀ j ∈ (((indexedFracs safe).insertionSort remOrderDesc).map Prod.fst).take
        (target - (safe.map fun v => ⌊v⌋).sum).toNat, j < (safe.map fun v => ⌊v⌋).length := by
      intro j hjmem
      rw [List.length_map]
      exact hordermem j ((List.take_sublist _ _).mem hjmem)
    constructor
    · rw [foldl_bump_sum _ _ htakemem, List.length_take, horderlen]
      omega
    · intro i hi hz
      have hndtake : ((((indexedFracs safe).insertionSort remOrderDesc).map Prod.fst).take
          (target - (safe.map fun v => ⌊v⌋).sum).toNat).Nodup :=
        (List.take_sublist _ _).nodup hnodup
      have hnotmem : i ∉ (((indexedFracs safe).insertionSort remOrderDesc).map Prod.fst).take
          (target - (safe.map fun v => ⌊v⌋).sum).toNat := by
        intro hmem
        rcases List.mem_take_iff_getElem.mp hmem with ⟨j, hjb, hget⟩
        have hjD : j < (target - (safe.map fun v => ⌊v⌋).sum).toNat := by
          rcases lt_min_iff.mp hjb with ⟨h1, _⟩
          exact h1
        have hjsorted : j < ((indexedFracs safe).insertionSort remOrderDesc).length := by
          rcases lt_min_iff.mp hjb with ⟨_, h2⟩
          rw [List.length_map] at h2
          exact h2
        -- the j-th sorted pair has index i and positive fractional part
        have hfst : (((indexedFracs safe).insertionSort remOrderDesc).get ⟨j, hjsorted⟩).1 = i := by
          have := hget
          rw [List.getElem_map] at this
          simpa using this
        rcases hprefix j hjD with ⟨hj2, hposfrac⟩
        have hj2' : j < ((indexedFracs safe).insertionSort remOrderDesc).length := by
          rw [List.length_map] at hj2
          exact hj2
        have hsndval :
            (((indexedFracs safe).insertionSort remOrderDesc).map Prod.snd).get ⟨j, hj2⟩ =
              (((indexedFracs safe).insertionSort remOrderDesc).get ⟨j, hj2'⟩).2 := by
          simp
        rw [hsndval] at hposfrac
        -- but the pair is in indexedFracs with value 0
        have hpmem : ((indexedFracs safe).insertionSort remOrderDesc).get ⟨j, hj2'⟩ ∈
            indexedFracs safe := hperm.mem_iff.mp (List.get_mem _ _ _)
        have hpair := @mem_indexedFracs safe
          (((indexedFracs safe).insertionSort remOrderDesc).get ⟨j, hj2'⟩).1
          (((indexedFracs safe).insertionSort remOrderDesc).get ⟨j, hj2'⟩).2
          (by simpa using hpmem)
        rcases hpair with ⟨_, hfval⟩
        have : (((indexedFracs safe).insertionSort remOrderDesc).get ⟨j, hj2'⟩).2 = 0 := by
          have hgi : (((indexedFracs safe).insertionSort remOrderDesc).get ⟨j, hj2'⟩).1 = i := by
            have hgeteq : ((indexedFracs safe).insertionSort remOrderDesc).get ⟨j, hj2'⟩ =
                ((indexedFracs safe).insertionSort remOrderDesc).get ⟨j, hjsorted⟩ := rfl
            rw [hgeteq]
            exact hfst
          rw [hfval, hgi, hz]
          norm_num
        rw [this] at hposfrac
        exact lt_irrefl 0 hposfrac
      rw [foldl_bump_getD _ _ hndtake htakemem i, hgetbase i hi, hz, Int.floor_zero,
        if_neg hnotmem]
      norm_num

theorem safePos_map_of_nonneg (xs : List ℚ) (h : ∀ q ∈ xs, 0 ≤ q) :
    (xs.map JsNum.num).map safePos = xs := by
  rw [List.map_map]
  have : ∀ q ∈ xs, (safePos ∘ JsNum.num) q = id q := by
    intro q hq
    show safePos (JsNum.num q) = q
    simp only [safePos]
    rcases eq_or_lt_of_le (h q hq) with he | hlt
    · rw [if_neg (by rw [← he]; exact lt_irrefl 0), ← he]
    · rw [if_pos hlt]
  rw [List.map_congr_left this, List.map_id]

theorem clampInt_num_int (t : ℤ) (h1 : 0 ≤ t) (h2 : t ≤ MAX_SAFE_INTEGER) :
    clampInt (JsNum.num (t : ℚ)) 0 MAX_SAFE_INTEGER = t := by
  simp only [clampInt]
  rw [Int.floor_intCast, max_eq_right h1, min_eq_right h2]

/-- Under exact inputs the final correction of the allocator is a no-op. -/
theorem lrCore_exact (safe : List ℚ) (target : ℤ)
    (hnn : ∀ q ∈ safe, 0 ≤ q) (hsum : safe.sum = (target : ℚ)) (hpos : 0 < target) :
    lrCore safe target = lrBase2 safe target := by
  have hs := (lrBase2_exact safe target hnn hsum hpos).1
  unfold lrCore
  dsimp only
  rw [hs]
  norm_num

/-- Exact-input form of `allocateByLargestRemainder`: with non-negative
rational inputs summing to the (positive, safe-range) integer target, the
allocation is exactly the distribution stage. -/
theorem allocate_exact (xs : List ℚ) (target : ℤ)
    (hnn : ∀ q ∈ xs, 0 ≤ q) (hsum : xs.sum = (target : ℚ)) (hpos : 0 < target)
    (hmax : target ≤ MAX_SAFE_INTEGER) :
    allocateByLargestRemainder (xs.map JsNum.num) (JsNum.num (target : ℚ)) =
      lrBase2 xs target := by
  unfold allocateByLargestRemainder
  dsimp only
  rw [clampInt_num_int target hpos.le hmax, if_neg (by omega), safePos_map_of_nonneg xs hnn,
    lrCore_exact xs target hnn hsum hpos]

/-- Zero-valued exact entries are allocated exactly zero. -/
theorem allocate_exact_zeros (xs : List ℚ) (target : ℤ)
    (hnn : ∀ q ∈ xs, 0 ≤ q) (hsum : xs.sum = (target : ℚ)) (hpos : 0 < target)
    (hmax : target ≤ MAX_SAFE_INTEGER) :
    ∀ i, i < xs.length → xs.getD i 0 = 0 →
      (allocateByLargestRemainder (xs.map JsNum.num) (JsNum.num (target : ℚ))).getD i 0 = 0 := by
  intro i hi hz
  rw [allocate_exact xs target hnn hsum hpos hmax]
  exact (lrBase2_exact xs target hnn hsum hpos).2 i hi hz

/-! ### The minimum-percent adjustment: raise and give phases -/

theorem raiseNeed_fst (m : ℤ) (l : List (ℤ × Bool)) :
    (raiseNeed m l).1 = l.map fun p => if p.2 = true ∧ p.1 < m then m else p.1 := by
  induction l with
  | nil => rfl
  | cons p rest ih =>
    rcases p with ⟨v, pos⟩
    rw [raiseNeed, List.map_cons]
    dsimp only
    by_cases h : pos = true ∧ v < m
    · rw [if_pos h, if_pos h]
      simpa using ih
    · rw [if_neg h, if_neg h]
      simpa using ih

theorem raiseNeed_snd (m : ℤ) (l : List (ℤ × Bool)) :
    (raiseNeed m l).2 = (l.map fun p => if p.2 = true ∧ p.1 < m then m - p.1 else 0).sum := by
  induction l with
  | nil => rfl
  | cons p rest ih =>
    rcases p with ⟨v, pos⟩
    rw [raiseNeed, List.map_cons, List.sum_cons]
    dsimp only
    by_cases h : pos = true ∧ v < m
    · rw [if_pos h, if_pos h]
      simpa using ih
    · rw [if_neg h, if_neg h]
      simpa [ih] using ih

theorem giveLoop_length (m : ℤ) (donors : List (ℕ × ℤ)) (r : ℤ) (out : List ℤ) :
    (giveLoop m donors r out).length = out.length := by
  induction donors generalizing r out with
  | nil => rfl
  | cons d rest ih =>
    rcases d with ⟨i, v⟩
    rw [giveLoop]
    dsimp only
    split_ifs
    · rfl
    · exact ih _ _
    · rw [ih, List.length_set]

theorem giveLoop_getD_not_mem (m : ℤ) (donors : List (ℕ × ℤ)) (r : ℤ) (out : List ℤ)
    (i : ℕ) (h : i ∉ donors.map Prod.fst) :
    (giveLoop m donors r out).getD i 0 = out.getD i 0 := by
  induction donors generalizing r out with
  | nil => rfl
  | cons d rest ih =>
    rcases d with ⟨j, v⟩
    have hij : i ≠ j := by
      intro hc
      exact h (by simp [hc])
    have hrest : i ∉ rest.map Prod.fst := by
      intro hc
      exact h (by simp [hc])
    rw [giveLoop]
    dsimp only
    split_ifs
    · rfl
    · exact ih _ _ hrest
    · rw [ih _ _ hrest, getD_set_ne (fun hc => hij hc.symm)]

theorem giveLoop_getD_cases (m : ℤ) (donors : List (ℕ × ℤ)) (r : ℤ) (out : List ℤ) (i : ℕ) :
    (giveLoop m donors r out).getD i 0 = out.getD i 0 ∨
      m ≤ (giveLoop m donors r out).getD i 0 := by
  induction donors generalizing r out with
  | nil => left; rfl
  | cons d rest ih =>
    rcases d with ⟨j, v⟩
    rw [giveLoop]
    dsimp only
    split_ifs with h1 h2
    · left; rfl
    · exact ih _ _
    · by_cases hij : i = j
      · subst hij
        by_cases hilen : i < out.length
        · rcases ih (r - min (out.getD i 0 - m) r) (out.set i (out.getD i 0 - min (out.getD i 0 - m) r)) with hc | hc
          · right
            rw [hc, getD_set_self hilen]
            have : min (out.getD i 0 - m) r ≤ out.getD i 0 - m := min_le_left _ _
            omega
          · right; exact hc
        · rcases ih (r - min (out.getD i 0 - m) r) (out.set i (out.getD i 0 - min (out.getD i 0 - m) r)) with hc | hc
          · left
            rw [hc, List.set_eq_of_length_le (by omega)]
          · right; exact hc
      · rcases ih (r - min (out.getD j 0 - m) r) (out.set j (out.getD j 0 - min (out.getD j 0 - m) r)) with hc | hc
        · left
          rw [hc, getD_set_ne (fun hc2 => hij hc2.symm)]
        · right; exact hc

theorem giveLoop_sum (m : ℤ) (donors : List (ℕ × ℤ)) (r : ℤ) (out : List ℤ)
    (hnd : (donors.map Prod.fst).Nodup)
    (hb : ∀ p ∈ donors, p.1 < out.length)
    (hr0 : 0 ≤ r)
    (hcap : r ≤ (donors.map fun p => max 0 (out.getD p.1 0 - m)).sum) :
    (giveLoop m donors r out).sum = out.sum - r := by
  induction donors generalizing r out with
  | nil =>
    simp only [List.map_nil, List.sum_nil] at hcap
    have : r = 0 := le_antisymm hcap hr0
    rw [giveLoop, this]
    ring
  | cons d rest ih =>
    rcases d with ⟨j, v⟩
    have hjlen : j < out.length := hb (j, v) (List.mem_cons_self _ _)
    have hndrest : (rest.map Prod.fst).Nodup := by
      rw [List.map_cons] at hnd
      exact (List.nodup_cons.mp hnd).2
    have hjrest : j ∉ rest.map Prod.fst := by
      rw [List.map_cons] at hnd
      exact (List.nodup_cons.mp hnd).1
    rw [giveLoop]
    dsimp only
    split_ifs with h1 h2
    · omega
    · -- canGive ≤ 0: this donor contributes nothing to the capacity
      refine ih _ _ hndrest (fun p hp => hb p (List.mem_cons_of_mem _ hp)) hr0 ?_
      rw [List.map_cons, List.sum_cons] at hcap
      dsimp only at hcap
      have : max 0 (out.getD j 0 - m) = 0 := by omega
      omega
    · -- take from this donor
      push_neg at h2
      have htk : 0 < min (out.getD j 0 - m) r := lt_min h2 (lt_of_le_of_ne hr0 (Ne.symm h1))
      have hsetlen : ∀ p ∈ rest, p.1 < (out.set j (out.getD j 0 - min (out.getD j 0 - m) r)).length := by
        intro p hp
        rw [List.length_set]
        exact hb p (List.mem_cons_of_mem _ hp)
      have hsetsame : ∀ p ∈ rest,
          (out.set j (out.getD j 0 - min (out.getD j 0 - m) r)).getD p.1 0 = out.getD p.1 0 := by
        intro p hp
        refine getD_set_ne ?_ _
        intro hc
        exact hjrest (hc ▸ List.mem_map_of_mem Prod.fst hp)
      have hmapeq :
          (rest.map fun p => max 0 ((out.set j (out.getD j 0 - min (out.getD j 0 - m) r)).getD p.1 0 - m)).sum =
            (rest.map fun p => max 0 (out.getD p.1 0 - m)).sum := by
        refine congrArg List.sum (List.map_congr_left ?_)
        intro p hp
        rw [hsetsame p hp]
      have hcap' : r - min (out.getD j 0 - m) r ≤
          (rest.map fun p => max 0 ((out.set j (out.getD j 0 - min (out.getD j 0 - m) r)).getD p.1 0 - m)).sum := by
        rw [hmapeq]
        rw [List.map_cons, List.sum_cons] at hcap
        dsimp only at hcap
        have hmx : max 0 (out.getD j 0 - m) = out.getD j 0 - m := by omega
        have hsumnn : 0 ≤ (rest.map fun p => max 0 (out.getD p.1 0 - m)).sum := by
          refine List.sum_nonneg ?_
          intro x hx
          rcases List.mem_map.mp hx with ⟨p, _, he2⟩
          subst he2
          exact le_max_left _ _
        rcases min_cases (out.getD j 0 - m) r with ⟨he, _⟩ | ⟨he, _⟩ <;> omega
      rw [ih _ _ hndrest hsetlen (by omega) hcap', sumZ_set hjlen]
      omega

/-! ### Range-sum normal forms for the adjustment bookkeeping -/

theorem enumFrom_filter_map_sum (l : List ℤ) (k : ℕ) (P : ℕ → ℤ → Bool) (f : ℕ → ℤ → ℤ) :
    (((List.enumFrom k l).filter fun p => P p.1 p.2).map fun p => f p.1 p.2).sum =
      ∑ i ∈ Finset.range l.length,
        if P (k + i) (l.getD i 0) then f (k + i) (l.getD i 0) else 0 := by
  induction l generalizing k with
  | nil => simp
  | cons a t ih =>
    rw [List.enumFrom_cons, List.length_cons, Finset.sum_range_succ']
    simp only [List.getD_cons_succ, List.getD_cons_zero, Nat.add_zero]
    have hshift : ∀ i ∈ Finset.range t.length,
        (if P (k + (i + 1)) (t.getD i 0) then f (k + (i + 1)) (t.getD i 0) else 0) =
          (if P (k + 1 + i) (t.getD i 0) then f (k + 1 + i) (t.getD i 0) else 0) := by
      intro i _
      rw [show k + (i + 1) = k + 1 + i by omega]
    rw [Finset.sum_congr rfl hshift]
    by_cases hp : P k a
    · rw [List.filter_cons_of_pos (by simpa using hp), List.map_cons, List.sum_cons, ih (k + 1)]
      dsimp only
      rw [if_pos hp]
      ring
    · rw [List.filter_cons_of_neg (by simpa using hp), ih (k + 1)]
      rw [if_neg hp]
      ring

theorem enum_filter_map_sum (l : List ℤ) (P : ℕ → ℤ → Bool) (f : ℕ → ℤ → ℤ) :
    ((l.enum.filter fun p => P p.1 p.2).map fun p => f p.1 p.2).sum =
      ∑ i ∈ Finset.range l.length,
        if P i (l.getD i 0) then f i (l.getD i 0) else 0 := by
  have h := enumFrom_filter_map_sum l 0 P f
  simp only [Nat.zero_add] at h
  exact h

theorem zipBool_map_sum (l1 : List ℤ) (l2 : List Bool) (h : l1.length = l2.length)
    (f : ℤ → Bool → ℤ) :
    ((l1.zip l2).map fun p => f p.1 p.2).sum =
      ∑ i ∈ Finset.range l1.length, f (l1.getD i 0) (l2.getD i false) := by
  induction l1 generalizing l2 with
  | nil => simp
  | cons a t ih =>
    rcases l2 with _ | ⟨b, t2⟩
    · simp at h
    · rw [List.zip_cons_cons, List.map_cons, List.sum_cons, List.length_cons,
        Finset.sum_range_succ']
      simp only [List.getD_cons_succ, List.getD_cons_zero]
      rw [ih t2 (by simpa using h)]
      ring

/-! ### Donor-list facts -/

theorem donors_sublist_perm (out : List ℤ) (positive : List Bool) (rounded : List ℤ)
    (m : ℤ) :
    (donorsOf out positive rounded m).Perm
      (out.enum.filter fun p =>
        decide (positive.getD p.1 false = true) &&
        !(decide (isNeedIdx positive rounded m p.1)) &&
        decide (m < p.2)) := by
  unfold donorsOf
  exact List.perm_insertionSort donorOrder _

theorem donors_fst_nodup (out : List ℤ) (positive : List Bool) (rounded : List ℤ) (m : ℤ) :
    ((donorsOf out positive rounded m).map Prod.fst).Nodup := by
  have hperm := (donors_sublist_perm out positive rounded m).map Prod.fst
  refine hperm.nodup_iff.mpr ?_
  have hsub : (out.enum.filter fun p =>
      decide (positive.getD p.1 false = true) &&
      !(decide (isNeedIdx positive rounded m p.1)) &&
      decide (m < p.2)).Sublist out.enum := List.filter_sublist _
  have hsubmap := hsub.map Prod.fst
  rw [List.enum_map_fst] at hsubmap
  exact hsubmap.nodup (List.nodup_range _)

theorem donors_mem (out : List ℤ) (positive : List Bool) (rounded : List ℤ) (m : ℤ)
    {p : ℕ × ℤ} (hp : p ∈ donorsOf out positive rounded m) :
    p.1 < out.length ∧ p.2 = out.getD p.1 0 ∧ positive.getD p.1 false = true ∧
      ¬ isNeedIdx positive rounded m p.1 ∧ m < p.2 := by
  have hmem := (donors_sublist_perm out positive rounded m).mem_iff.mp hp
  have hcond := List.of_mem_filter hmem
  have henum : p ∈ out.enum := List.mem_of_mem_filter hmem
  have hget := List.mem_enum_iff_getElem?.mp henum
  have hlt : p.1 < out.length := by
    by_contra hc
    rw [List.getElem?_eq_none (by omega)] at hget
    exact Option.noConfusion hget
  have hval : out.getD p.1 0 = p.2 := by
    rw [List.getD_eq_getElem _ _ hlt]
    rw [List.getElem?_eq_getElem hlt] at hget
    injection hget
  simp only [Bool.and_eq_true, decide_eq_true_eq, Bool.not_eq_true', decide_eq_false_iff_not]
    at hcond
  exact ⟨hlt, hval.symm, hcond.1.1, hcond.1.2, hcond.2⟩

/-- Behaviour of the adjustment stage with total `100` and minimum `1` on
exact rounded data: every positive entry ends at least `1`, and zero entries
stay `0`. -/
theorem apwmAdjust_spec (xs : List ℚ) (rounded : List ℤ) (positive : List Bool)
    (hlen : rounded.length = xs.length) (hplen : positive.length = xs.length)
    (hpos_def : ∀ i, i < xs.length → positive.getD i false = decide (0 < xs.getD i 0))
    (hnn : ∀ q ∈ xs, 0 ≤ q)
    (hrnn : ∀ x ∈ rounded, 0 ≤ x)
    (hrsum : rounded.sum = 100)
    (hrzero : ∀ i, i < xs.length → xs.getD i 0 = 0 → rounded.getD i 0 = 0)
    (hcount : (xs.countP fun q => decide (0 < q)) ≤ 100) :
    (∀ i, i < xs.length → 0 < xs.getD i 0 →
      1 ≤ (apwmAdjust rounded positive 100 1).getD i 0) ∧
    (∀ i, i < xs.length → xs.getD i 0 = 0 →
      (apwmAdjust rounded positive 100 1).getD i 0 = 0) ∧
    (apwmAdjust rounded positive 100 1).sum = 100 := by
  set n := xs.length with hn
  -- getD bounds for rounded
  have hr_getD_nn : ∀ i, 0 ≤ rounded.getD i 0 := by
    intro i
    by_cases hi : i < rounded.length
    · exact hrnn _ (by rw [List.getD_eq_getElem _ _ hi]; exact rounded.getElem_mem hi)
    · rw [List.getD_eq_default _ _ (by omega)]
  -- the raised list
  have hout_len : (raiseNeed 1 (rounded.zip positive)).1.length = n := by
    rw [raiseNeed_fst, List.length_map, List.length_zip]
    omega
  have hout_getD : ∀ i, i < n →
      (raiseNeed 1 (rounded.zip positive)).1.getD i 0 =
        if positive.getD i false = true ∧ rounded.getD i 0 < 1 then 1
        else rounded.getD i 0 := by
    intro i hi
    rw [raiseNeed_fst]
    have hd : (if ((0 : ℤ), false).2 = true ∧ ((0 : ℤ), false).1 < 1 then (1:ℤ)
        else ((0 : ℤ), false).1) = 0 := by norm_num
    have := List.getD_map (rounded.zip positive) ((0 : ℤ), false) (n := i)
      (fun p => if p.2 = true ∧ p.1 < 1 then 1 else p.1)
    rw [hd] at this
    rw [this, zip_getD _ _ _ _ _ (by omega) (by omega)]
  -- positive entries of the raised list are at least 1
  have hout_pos : ∀ i, i < n → 0 < xs.getD i 0 →
      1 ≤ (raiseNeed 1 (rounded.zip positive)).1.getD i 0 := by
    intro i hi hq
    rw [hout_getD i hi]
    have hpt : positive.getD i false = true := by
      rw [hpos_def i hi]
      simpa using hq
    by_cases hr : rounded.getD i 0 < 1
    · rw [if_pos ⟨hpt, hr⟩]
    · rw [if_neg (by tauto)]
      omega
  -- zero entries of the raised list stay 0
  have hout_zero : ∀ i, i < n → xs.getD i 0 = 0 →
      (raiseNeed 1 (rounded.zip positive)).1.getD i 0 = 0 := by
    intro i hi hq
    have hpf : positive.getD i false = false := by
      rw [hpos_def i hi, hq]
      norm_num
    rw [hout_getD i hi, if_neg (by rw [hpf]; simp), hrzero i hi hq]
  -- range-sum forms
  have hreq_eq : (raiseNeed 1 (rounded.zip positive)).2 =
      ∑ i ∈ Finset.range n,
        (if positive.getD i false = true ∧ rounded.getD i 0 = 0 then (1:ℤ) else 0) := by
    rw [raiseNeed_snd, zipBool_map_sum rounded positive (by omega)
      (fun v b => if b = true ∧ v < 1 then 1 - v else 0), hlen]
    refine Finset.sum_congr rfl ?_
    intro i _
    have := hr_getD_nn i
    by_cases hb : positive.getD i false = true
    · by_cases hz : rounded.getD i 0 = 0
      · rw [if_pos ⟨hb, by omega⟩, if_pos ⟨hb, hz⟩, hz]
        norm_num
      · rw [if_neg (by intro hc; omega), if_neg (by tauto)]
    · rw [if_neg (by tauto), if_neg (by tauto)]
  have hreq_nn : 0 ≤ (raiseNeed 1 (rounded.zip positive)).2 := by
    rw [hreq_eq]
    refine Finset.sum_nonneg ?_
    intro i _
    split_ifs <;> omega
  have hsum_out : (raiseNeed 1 (rounded.zip positive)).1.sum =
      100 + (raiseNeed 1 (rounded.zip positive)).2 := by
    rw [listSum_eq_rangeSum' _ (0:ℤ), hout_len, hreq_eq, ← hrsum,
      listSum_eq_rangeSum' rounded (0:ℤ), hlen, ← Finset.sum_add_distrib]
    refine Finset.sum_congr rfl ?_
    intro i hi
    rw [hout_getD i (Finset.mem_range.mp hi)]
    have := hr_getD_nn i
    by_cases hb : positive.getD i false = true
    · by_cases hz : rounded.getD i 0 = 0
      · rw [if_pos ⟨hb, by omega⟩, if_pos ⟨hb, hz⟩]
        omega
      · rw [if_neg (by intro hc; omega), if_neg (by tauto)]
        omega
    · rw [if_neg (by tauto), if_neg (by tauto)]
      omega
  -- prove the branch facts, then unfold
  by_cases hreq : (raiseNeed 1 (rounded.zip positive)).2 = 0
  · -- no raising needed: the adjusted list is the raised list
    have hres : apwmAdjust rounded positive 100 1 = (raiseNeed 1 (rounded.zip positive)).1 := by
      unfold apwmAdjust
      dsimp only
      rw [if_pos hreq]
    rw [hres]
    refine ⟨hout_pos, hout_zero, ?_⟩
    rw [hsum_out, hreq]
    ring
  · -- raising needed: show the donors always cover the requirement
    -- available capacity in range-sum form
    have hx_getD_nn : ∀ i, 0 ≤ xs.getD i 0 := by
      intro i
      by_cases hi : i < xs.length
      · exact hnn _ (by rw [List.getD_eq_getElem _ _ hi]; exact xs.getElem_mem hi)
      · rw [List.getD_eq_default _ _ (by omega)]
    have havail_eq :
        ((donorsOf (raiseNeed 1 (rounded.zip positive)).1 positive rounded 1).map
          fun p => max 0 ((raiseNeed 1 (rounded.zip positive)).1.getD p.1 0 - 1)).sum =
        ∑ i ∈ Finset.range n,
          (if positive.getD i false = true ∧ 1 < rounded.getD i 0
            then rounded.getD i 0 - 1 else (0:ℤ)) := by
      rw [((donors_sublist_perm _ positive rounded 1).map
        (fun p => max 0 ((raiseNeed 1 (rounded.zip positive)).1.getD p.1 0 - 1))).sum_eq]
      rw [enum_filter_map_sum ((raiseNeed 1 (rounded.zip positive)).1)
        (fun i v => decide (positive.getD i false = true) &&
          !(decide (isNeedIdx positive rounded 1 i)) && decide (1 < v))
        (fun i _ => max 0 ((raiseNeed 1 (rounded.zip positive)).1.getD i 0 - 1))]
      rw [hout_len]
      refine Finset.sum_congr rfl ?_
      intro i hi
      have hiR := Finset.mem_range.mp hi
      have hrg := hr_getD_nn i
      rw [hout_getD i hiR]
      rcases hb : positive.getD i false with _ | _ <;>
        simp only [isNeedIdx, hb, Bool.and_eq_true, Bool.not_eq_true', decide_eq_true_eq,
          decide_eq_false_iff_not, not_and, not_lt, Bool.false_eq_true, false_and, if_false,
          true_and, eq_self_iff_true, true_implies, and_true] <;>
        (try split_ifs) <;> omega
    -- the counting argument: available is at least required
    have hcount_eq : ((xs.countP fun q => decide (0 < q)) : ℤ) =
        ∑ i ∈ Finset.range n, (if positive.getD i false = true then (1:ℤ) else 0) := by
      rw [countP_eq_rangeSum xs _ 0]
      refine Finset.sum_congr rfl ?_
      intro i hi
      rw [hpos_def i (Finset.mem_range.mp hi)]
    have hsum_r : (∑ i ∈ Finset.range n, rounded.getD i 0) = 100 := by
      rw [← hlen, ← listSum_eq_rangeSum' rounded (0:ℤ)]
      exact hrsum
    have hcap : (raiseNeed 1 (rounded.zip positive)).2 ≤
        ((donorsOf (raiseNeed 1 (rounded.zip positive)).1 positive rounded 1).map
          fun p => max 0 ((raiseNeed 1 (rounded.zip positive)).1.getD p.1 0 - 1)).sum := by
      rw [havail_eq, hreq_eq]
      have hkey : ∀ i ∈ Finset.range n,
          (if positive.getD i false = true ∧ 1 < rounded.getD i 0
            then rounded.getD i 0 - 1 else (0:ℤ)) =
          rounded.getD i 0 +
            (if positive.getD i false = true ∧ rounded.getD i 0 = 0 then (1:ℤ) else 0) -
            (if positive.getD i false = true then (1:ℤ) else 0) := by
        intro i hi
        have hiR := Finset.mem_range.mp hi
        have hrg := hr_getD_nn i
        rcases hb : positive.getD i false with _ | _
        · have hxz : xs.getD i 0 = 0 := by
            have hpd := hpos_def i hiR
            rw [hb] at hpd
            have hnot : ¬ (0 < xs.getD i 0) := by
              intro hc
              rw [decide_eq_true hc] at hpd
              exact Bool.noConfusion hpd
            have := hx_getD_nn i
            linarith [lt_or_eq_of_le this]
          have hr0 : rounded.getD i 0 = 0 := hrzero i hiR hxz
          simp only [Bool.false_eq_true, false_and, if_false]
          omega
        · simp only [eq_self_iff_true, true_and, if_true]
          split_ifs <;> omega
      rw [Finset.sum_congr rfl hkey, Finset.sum_sub_distrib, Finset.sum_add_distrib,
        hsum_r, ← hcount_eq]
      omega
    -- assemble the adjusted result
    have hdon_nodup := donors_fst_nodup (raiseNeed 1 (rounded.zip positive)).1 positive rounded 1
    have hdon_lt : ∀ p ∈ donorsOf (raiseNeed 1 (rounded.zip positive)).1 positive rounded 1,
        p.1 < (raiseNeed 1 (rounded.zip positive)).1.length := fun p hp =>
      (donors_mem _ _ _ _ hp).1
    have hout2_sum : (giveLoop 1
        (donorsOf (raiseNeed 1 (rounded.zip positive)).1 positive rounded 1)
        (raiseNeed 1 (rounded.zip positive)).2
        (raiseNeed 1 (rounded.zip positive)).1).sum = 100 := by
      rw [giveLoop_sum 1 _ _ _ hdon_nodup hdon_lt hreq_nn hcap, hsum_out]
      ring
    have hres : apwmAdjust rounded positive 100 1 =
        giveLoop 1 (donorsOf (raiseNeed 1 (rounded.zip positive)).1 positive rounded 1)
          (raiseNeed 1 (rounded.zip positive)).2
          (raiseNeed 1 (rounded.zip positive)).1 := by
      unfold apwmAdjust
      dsimp only
      rw [if_neg hreq, if_neg (by omega), if_pos (by rw [hout2_sum]; norm_num)]
    rw [hres]
    refine ⟨?_, ?_, hout2_sum⟩
    · intro i hi hq
      rcases giveLoop_getD_cases 1
        (donorsOf (raiseNeed 1 (rounded.zip positive)).1 positive rounded 1)
        (raiseNeed 1 (rounded.zip positive)).2
        (raiseNeed 1 (rounded.zip positive)).1 i with hc | hc
      · rw [hc]
        exact hout_pos i hi hq
      · exact hc
    · intro i hi hq
      have hpf : positive.getD i false = false := by
        rw [hpos_def i hi, hq]
        norm_num
      have hnotdon : i ∉ (donorsOf (raiseNeed 1 (rounded.zip positive)).1 positive rounded 1).map
          Prod.fst := by
        intro hmem
        rcases List.mem_map.mp hmem with ⟨p, hp, he⟩
        have := (donors_mem _ _ _ _ hp).2.2.1
        rw [he] at this
        rw [hpf] at this
        exact Bool.noConfusion this
      rw [giveLoop_getD_not_mem _ _ _ _ _ hnotdon]
      exact hout_zero i hi hq

theorem cast100 : (((100 : ℤ)) : ℚ) = (100 : ℚ) := by norm_num

theorem clampInt_100 : clampInt (JsNum.num 100) 0 100 = 100 := by
  have : ⌊(100 : ℚ)⌋ = 100 := by
    rw [show (100 : ℚ) = ((100 : ℤ) : ℚ) by norm_num, Int.floor_intCast]
  simp only [clampInt, this]
  norm_num

theorem clampInt_1_100 : clampInt (JsNum.num 1) 0 100 = 1 := by
  have : ⌊(1 : ℚ)⌋ = 1 := by
    rw [show (1 : ℚ) = ((1 : ℤ) : ℚ) by norm_num, Int.floor_intCast]
  simp only [clampInt, this]
  norm_num

/-- Resolution of the guards of `allocatePercentagesWithMinimum` for exact
non-negative inputs summing to 100 (total 100, minimum 1): the result is the
adjustment stage when feasible and the raw rounding otherwise. -/
theorem apwm_exact_unfold (xs : List ℚ) (hnn : ∀ q ∈ xs, 0 ≤ q) (hsum : xs.sum = 100) :
    allocatePercentagesWithMinimum (xs.map JsNum.num) (JsNum.num 100) (JsNum.num 1) =
      if (100 : ℤ) < ((xs.countP fun q => decide (0 < q) : ℕ) : ℤ) * 1 then
        allocateByLargestRemainder (xs.map JsNum.num) (JsNum.num 100)
      else
        apwmAdjust (allocateByLargestRemainder (xs.map JsNum.num) (JsNum.num 100))
          (xs.map fun v => decide (0 < v)) 100 1 := by
  have hxs_ne : xs ≠ [] := by
    rintro rfl
    rw [List.sum_nil] at hsum
    norm_num at hsum
  have hround_ne : allocateByLargestRemainder (xs.map JsNum.num) (JsNum.num 100) ≠ [] := by
    intro hc
    have := congrArg List.length hc
    rw [length_allocateByLargestRemainder, List.length_map] at this
    simp only [List.length_nil] at this
    exact hxs_ne (List.length_eq_zero.mp this)
  have hex : 0 < xs.countP fun q => decide (0 < q) := by
    rw [List.countP_pos]
    by_contra hcon
    push_neg at hcon
    have hz : ∀ q ∈ xs, q = 0 := by
      intro q hq
      have h1 := hnn q hq
      have h2 : ¬ (0 < q) := by simpa using hcon q hq
      linarith
    rw [List.sum_eq_zero hz] at hsum
    norm_num at hsum
  unfold allocatePercentagesWithMinimum
  dsimp only
  rw [clampInt_100, clampInt_1_100, safePos_map_of_nonneg xs hnn, cast100]
  rw [if_neg (by
    push_neg
    refine ⟨by norm_num, by norm_num, hround_ne⟩)]
  rw [List.countP_map]
  have hcomp : (id ∘ fun v : ℚ => decide (0 < v)) = fun q : ℚ => decide (0 < q) := rfl
  rw [hcomp]
  rw [if_neg (by
    intro hc
    have : xs.countP (fun q => decide (0 < q)) = 0 := by exact_mod_cast hc
    omega)]

/-- Claim C2: with total `100` and minimum `1`, over non-negative exact
percentages summing to `100`, `allocatePercentagesWithMinimum` gives every
strictly positive entry at least `1` whenever the number of positive entries
times the minimum is at most `100`; entries with exact value `0` get exactly
`0`; and when the feasibility condition fails the result is the unmodified
largest-remainder allocation. -/
theorem allocatePercentagesWithMinimum_exact_spec (xs : List ℚ)
    (hnn : ∀ q ∈ xs, 0 ≤ q) (hsum : xs.sum = 100) :
    ((xs.countP fun q => decide (0 < q)) * 1 ≤ 100 →
      ∀ i, i < xs.length → 0 < xs.getD i 0 →
        1 ≤ (allocatePercentagesWithMinimum (xs.map JsNum.num) (JsNum.num 100)
          (JsNum.num 1)).getD i 0) ∧
    (∀ i, i < xs.length → xs.getD i 0 = 0 →
      (allocatePercentagesWithMinimum (xs.map JsNum.num) (JsNum.num 100)
        (JsNum.num 1)).getD i 0 = 0) ∧
    (100 < (xs.countP fun q => decide (0 < q)) * 1 →
      allocatePercentagesWithMinimum (xs.map JsNum.num) (JsNum.num 100) (JsNum.num 1) =
        allocateByLargestRemainder (xs.map JsNum.num) (JsNum.num 100)) := by
  have hsumZ : xs.sum = (((100 : ℤ)) : ℚ) := by rw [cast100]; exact hsum
  have hmax : (100 : ℤ) ≤ MAX_SAFE_INTEGER := by unfold MAX_SAFE_INTEGER; omega
  have hnum100 : JsNum.num (100 : ℚ) = JsNum.num (((100 : ℤ)) : ℚ) := by rw [cast100]
  have hrzero : ∀ i, i < xs.length → xs.getD i 0 = 0 →
      (allocateByLargestRemainder (xs.map JsNum.num) (JsNum.num 100)).getD i 0 = 0 := by
    intro i hi hz
    rw [hnum100]
    exact allocate_exact_zeros xs 100 hnn hsumZ (by norm_num) hmax i hi hz
  rw [apwm_exact_unfold xs hnn hsum]
  by_cases hfeas : (100 : ℤ) < ((xs.countP fun q => decide (0 < q) : ℕ) : ℤ) * 1
  · rw [if_pos hfeas]
    refine ⟨?_, hrzero, fun _ => rfl⟩
    intro hle
    exfalso
    have : ((xs.countP fun q => decide (0 < q) : ℕ) : ℤ) * 1 ≤ 100 := by exact_mod_cast hle
    omega
  · rw [if_neg hfeas]
    have hcount : (xs.countP fun q => decide (0 < q)) ≤ 100 := by
      push_neg at hfeas
      omega
    have hspec := apwmAdjust_spec xs
      (allocateByLargestRemainder (xs.map JsNum.num) (JsNum.num 100))
      (xs.map fun v => decide (0 < v))
      (by rw [length_allocateByLargestRemainder, List.length_map])
      (by rw [List.length_map])
      (by
        intro i hi
        have := List.getD_map xs (0 : ℚ) (n := i) (fun v => decide (0 < v))
        rw [show decide ((0:ℚ) < 0) = false by norm_num] at this
        exact this)
      hnn
      (nonneg_allocateByLargestRemainder _ _)
      (by
        rw [hnum100, sum_allocateByLargestRemainder _ _
          (by intro hc; exact absurd (List.map_eq_nil_iff.mp hc) (by
            rintro rfl
            rw [List.sum_nil] at hsum
            norm_num at hsum))]
        exact clampInt_num_int 100 (by norm_num) hmax)
      hrzero
      hcount
    refine ⟨fun _ => hspec.1, hspec.2.1, ?_⟩
    intro hgt
    exfalso
    omega

/-! ### Sanitization and top-level exact sums -/

theorem safePos_idem (v : JsNum) : safePos (JsNum.num (safePos v)) = safePos v := by
  have h := safePos_nonneg v
  show (if 0 < safePos v then safePos v else 0) = safePos v
  rcases eq_or_lt_of_le h with he | hlt
  · rw [if_neg (by rw [← he]; exact lt_irrefl 0), ← he]
  · rw [if_pos hlt]

/-- The allocator only sees the sanitized values: non-finite and non-positive
entries are treated as `0`. -/
theorem allocateByLargestRemainder_sanitized (xs : List JsNum) (total : JsNum) :
    allocateByLargestRemainder xs total =
      allocateByLargestRemainder (xs.map fun v => JsNum.num (safePos v)) total := by
  unfold allocateByLargestRemainder
  dsimp only
  split_ifs
  · rw [List.map_map]
    rfl
  · rw [List.map_map]
    have : (safePos ∘ fun v => JsNum.num (safePos v)) = safePos := by
      funext v
      exact safePos_idem v
    rw [this]

/-- The sum of `allocatePercentagesWithMinimum` over exact data is always the
target `100`. -/
theorem sum_apwm_exact (xs : List ℚ) (hnn : ∀ q ∈ xs, 0 ≤ q) (hsum : xs.sum = 100) :
    (allocatePercentagesWithMinimum (xs.map JsNum.num) (JsNum.num 100) (JsNum.num 1)).sum =
      100 := by
  have hxs_ne : xs ≠ [] := by
    rintro rfl
    rw [List.sum_nil] at hsum
    norm_num at hsum
  have hmax : (100 : ℤ) ≤ MAX_SAFE_INTEGER := by unfold MAX_SAFE_INTEGER; omega
  have hround_sum :
      (allocateByLargestRemainder (xs.map JsNum.num) (JsNum.num 100)).sum = 100 := by
    rw [show JsNum.num (100 : ℚ) = JsNum.num (((100 : ℤ)) : ℚ) by rw [cast100]]
    rw [sum_allocateByLargestRemainder _ _ (by
      intro hc
      exact hxs_ne (List.map_eq_nil_iff.mp hc))]
    exact clampInt_num_int 100 (by norm_num) hmax
  rw [apwm_exact_unfold xs hnn hsum]
  by_cases hfeas : (100 : ℤ) < ((xs.countP fun q => decide (0 < q) : ℕ) : ℤ) * 1
  · rw [if_pos hfeas]
    exact hround_sum
  · rw [if_neg hfeas]
    have hsumZ : xs.sum = (((100 : ℤ)) : ℚ) := by rw [cast100]; exact hsum
    exact (apwmAdjust_spec xs
      (allocateByLargestRemainder (xs.map JsNum.num) (JsNum.num 100))
      (xs.map fun v => decide (0 < v))
      (by rw [length_allocateByLargestRemainder, List.length_map])
      (by rw [List.length_map])
      (by
        intro i hi
        have := List.getD_map xs (0 : ℚ) (n := i) (fun v => decide (0 < v))
        rw [show decide ((0:ℚ) < 0) = false by norm_num] at this
        exact this)
      hnn
      (nonneg_allocateByLargestRemainder _ _)
      hround_sum
      (by
        intro i hi hz
        rw [show JsNum.num (100 : ℚ) = JsNum.num (((100 : ℤ)) : ℚ) by rw [cast100]]
        exact allocate_exact_zeros xs 100 hnn hsumZ (by norm_num) hmax i hi hz)
      (by push_neg at hfeas; omega)).2.2

/-! ### Interval-loop telescoping for the summary -/

theorem bumpDir_total (d : DirMillis) (c : SampleClass) (span : ℤ) :
    (bumpDir d c span).left + (bumpDir d c span).right + (bumpDir d c span).ahead +
      (bumpDir d c span).behind + (bumpDir d c span).night =
      d.left + d.right + d.ahead + d.behind + d.night + span := by
  rcases c with ⟨st, sd⟩
  rcases st <;> rcases sd <;> simp [bumpDir] <;> ring

theorem bumpDay_total (d : DayMillis) (st : DaylightStatus) (span : ℤ) :
    (bumpDay d st span).day + (bumpDay d st span).twilight + (bumpDay d st span).night =
      d.day + d.twilight + d.night + span := by
  rcases st <;> simp [bumpDay] <;> ring

theorem summaryLoop_total (dep T n : ℤ) (sampler : ℚ → SampleClass)
    (hT : 0 ≤ T) (hn : 0 < n) :
    ∀ k : ℕ,
      (((List.range k).foldl (summaryStep dep T n sampler) (⟨0, 0, 0, 0, 0⟩, ⟨0, 0, 0⟩)).1.left +
        ((List.range k).foldl (summaryStep dep T n sampler) (⟨0, 0, 0, 0, 0⟩, ⟨0, 0, 0⟩)).1.right +
        ((List.range k).foldl (summaryStep dep T n sampler) (⟨0, 0, 0, 0, 0⟩, ⟨0, 0, 0⟩)).1.ahead +
        ((List.range k).foldl (summaryStep dep T n sampler) (⟨0, 0, 0, 0, 0⟩, ⟨0, 0, 0⟩)).1.behind +
        ((List.range k).foldl (summaryStep dep T n sampler) (⟨0, 0, 0, 0, 0⟩, ⟨0, 0, 0⟩)).1.night =
        ((k : ℤ) * T) / n) ∧
      (((List.range k).foldl (summaryStep dep T n sampler) (⟨0, 0, 0, 0, 0⟩, ⟨0, 0, 0⟩)).2.day +
        ((List.range k).foldl (summaryStep dep T n sampler) (⟨0, 0, 0, 0, 0⟩, ⟨0, 0, 0⟩)).2.twilight +
        ((List.range k).foldl (summaryStep dep T n sampler) (⟨0, 0, 0, 0, 0⟩, ⟨0, 0, 0⟩)).2.night =
        ((k : ℤ) * T) / n) := by
  intro k
  induction k with
  | zero =>
    constructor <;> simp
  | succ k ih =>
    rw [List.range_succ, List.foldl_append]
    rcases ih with ⟨ih1, ih2⟩
    set acc := (List.range k).foldl (summaryStep dep T n sampler) (⟨0, 0, 0, 0, 0⟩, ⟨0, 0, 0⟩)
      with hacc
    have hmono : ((k : ℤ) * T) / n ≤ (((k : ℤ) + 1) * T) / n := by
      apply Int.ediv_le_ediv hn
      nlinarith
    simp only [List.foldl_cons, List.foldl_nil]
    rw [summaryStep]
    dsimp only
    by_cases hspan : dep + (((k : ℕ) : ℤ) + 1) * T / n - (dep + ((k : ℕ) : ℤ) * T / n) ≤ 0
    · rw [if_pos hspan]
      constructor
      · rw [ih1]
        push_cast at hspan ⊢
        omega
      · rw [ih2]
        push_cast at hspan ⊢
        omega
    · rw [if_neg hspan]
      constructor
      · show (bumpDir acc.1 _ _).left + (bumpDir acc.1 _ _).right + (bumpDir acc.1 _ _).ahead +
          (bumpDir acc.1 _ _).behind + (bumpDir acc.1 _ _).night = _
        rw [bumpDir_total, ih1]
        push_cast
        omega
      · show (bumpDay acc.2 _ _).day + (bumpDay acc.2 _ _).twilight +
          (bumpDay acc.2 _ _).night = _
        rw [bumpDay_total, ih2]
        push_cast
        omega

theorem raiseNeed_sum (m : ℤ) (l : List (ℤ × Bool)) :
    (raiseNeed m l).1.sum = (l.map Prod.fst).sum + (raiseNeed m l).2 := by
  induction l with
  | nil => simp [raiseNeed]
  | cons p rest ih =>
    rcases p with ⟨v, pos⟩
    rw [raiseNeed, List.map_cons, List.sum_cons]
    dsimp only
    by_cases h : pos = true ∧ v < m
    · rw [if_pos h]
      dsimp only [List.sum_cons]
      omega
    · rw [if_neg h]
      dsimp only [List.sum_cons]
      omega

/-- The final `diff` fix-up of `allocatePercentagesWithMinimum` forces the
adjusted allocation to sum to the target whenever at least one entry is
flagged positive, regardless of any exactness of the inputs. -/
theorem apwmAdjust_sum (rounded : List ℤ) (positive : List Bool) (target minValue : ℤ)
    (hplen : positive.length = rounded.length)
    (hsum : rounded.sum = target)
    (hpos : positive.countP id ≠ 0) :
    (apwmAdjust rounded positive target minValue).sum = target := by
  have hzip : (rounded.zip positive).map Prod.fst = rounded :=
    List.map_fst_zip _ _ (by omega)
  have hraise_len : (raiseNeed minValue (rounded.zip positive)).1.length = rounded.length := by
    rw [raiseNeed_fst, List.length_map, List.length_zip]
    omega
  have hraise_sum : (raiseNeed minValue (rounded.zip positive)).1.sum =
      rounded.sum + (raiseNeed minValue (rounded.zip positive)).2 := by
    rw [raiseNeed_sum, hzip]
  unfold apwmAdjust
  dsimp only
  by_cases hreq : (raiseNeed minValue (rounded.zip positive)).2 = 0
  · rw [if_pos hreq, hraise_sum, hreq, hsum]
    ring
  · rw [if_neg hreq]
    set donors :=
      donorsOf (raiseNeed minValue (rounded.zip positive)).1 positive rounded minValue
      with hdonors
    by_cases havail : (donors.map
        fun p => max 0 ((raiseNeed minValue (rounded.zip positive)).1.getD p.1 0 - minValue)).sum <
        (raiseNeed minValue (rounded.zip positive)).2
    · rw [if_pos havail, hsum]
    · rw [if_neg havail]
      set out2 := giveLoop minValue donors (raiseNeed minValue (rounded.zip positive)).2
        (raiseNeed minValue (rounded.zip positive)).1 with hout2
      have hlen2 : out2.length = rounded.length := by
        rw [hout2, giveLoop_length, hraise_len]
      by_cases hdiff : target - out2.sum = 0
      · rw [if_pos hdiff]
        omega
      · rw [if_neg hdiff]
        rcases hd : donors with _ | ⟨d, rest⟩
        · simp only [List.head?_nil]
          rcases hfi : positive.findIdx? id with _ | j
          · exfalso
            apply hpos
            rw [List.countP_eq_zero]
            intro a ha
            simpa using List.findIdx?_eq_none_iff.mp hfi a ha
          · have hj : j < positive.length :=
              (List.findIdx?_eq_some_iff_findIdx_eq.mp hfi).1
            show (out2.set j (out2.getD j 0 + (target - out2.sum))).sum = target
            rw [sumZ_set (by omega)]
            omega
        · have hdmem : d ∈ donors := by
            rw [hd]
            exact List.mem_cons_self d rest
          have hdlt : d.1 < rounded.length := by
            have := (donors_mem _ positive rounded minValue hdmem).1
            omega
          show (out2.set d.1 (out2.getD d.1 0 + (target - out2.sum))).sum = target
          rw [sumZ_set (by omega)]
          omega

/-- `allocatePercentagesWithMinimum` with total `100` and minimum `1` always
returns a list summing to `100` on a nonempty input: every branch either
returns the largest-remainder allocation (which sums to the clamped target)
or the adjusted allocation after the `diff` fix-up. -/
theorem sum_allocatePercentagesWithMinimum (xs : List JsNum) (hne : xs ≠ []) :
    (allocatePercentagesWithMinimum xs (JsNum.num 100) (JsNum.num 1)).sum = 100 := by
  unfold allocatePercentagesWithMinimum
  dsimp only
  rw [clampInt_100, clampInt_1_100]
  have hsne : ((xs.map safePos).map JsNum.num) ≠ [] := by
    intro hc
    apply hne
    simpa using hc
  have hrsum := sum_allocateByLargestRemainder ((xs.map safePos).map JsNum.num)
    (JsNum.num ((100 : ℤ) : ℚ)) hsne
  have hclamp : clampInt (JsNum.num ((100 : ℤ) : ℚ)) 0 MAX_SAFE_INTEGER = 100 :=
    clampInt_num_int 100 (by norm_num) (by norm_num [MAX_SAFE_INTEGER])
  rw [hclamp] at hrsum
  rw [cast100] at hrsum
  split_ifs with h1 h2 h3
  · exact hrsum
  · exact hrsum
  · exact hrsum
  · apply apwmAdjust_sum
    · rw [length_allocateByLargestRemainder]
      simp
    · exact hrsum
    · intro hc
      apply h2
      exact_mod_cast hc

/-- On a positive-duration plan, the rounded percent lists of
`computeFlightSunSummary` sum to `100` and its rounded minutes lists sum to
the plan duration clamped to `[0, MAX_SAFE_INTEGER]`. -/
theorem computeFlightSunSummary_sums (plan : FlightPlan) (sampler : ℚ → SampleClass)
    (options : FlightSunSummaryOptions)
    (h : 0 < plan.arrivalUtc - plan.departureUtc) :
    (computeFlightSunSummary plan sampler options).bucketPercent.sum = 100 ∧
    (computeFlightSunSummary plan sampler options).daylightPercent.sum = 100 ∧
    (computeFlightSunSummary plan sampler options).bucketMinutes.sum =
      min MAX_SAFE_INTEGER (max 0 plan.durationMinutes) ∧
    (computeFlightSunSummary plan sampler options).daylightMinutes.sum =
      min MAX_SAFE_INTEGER (max 0 plan.durationMinutes) := by
  have hcond : ¬ (max 0 (plan.arrivalUtc - plan.departureUtc) ≤ 0) := by omega
  have hclampt : clampInt (JsNum.num ((max 0 plan.durationMinutes : ℤ) : ℚ)) 0
      MAX_SAFE_INTEGER = min MAX_SAFE_INTEGER (max 0 plan.durationMinutes) := by
    simp only [clampInt]
    rw [Int.floor_intCast]
    omega
  unfold computeFlightSunSummary
  dsimp only
  rw [if_neg hcond]
  dsimp only
  refine ⟨?_, ?_, ?_, ?_⟩
  · exact sum_allocatePercentagesWithMinimum _ (by simp)
  · exact sum_allocatePercentagesWithMinimum _ (by simp)
  · rw [sum_allocateByLargestRemainder _ _ (by simp), hclampt]
  · rw [sum_allocateByLargestRemainder _ _ (by simp), hclampt]

/-- C1.  For a chronologically valid flight plan whose stored
`durationMinutes` is the rounded duration (as produced by
`createFlightPlan`), `computeFlightSunSummary` returns direction buckets and
daylight buckets whose percent fields sum to exactly `100`; the minutes
fields sum to exactly `plan.durationMinutes` PROVIDED the duration does not
exceed `MAX_SAFE_INTEGER` minutes (the allocator clamps its total at
`Number.MAX_SAFE_INTEGER`, so for absurdly long plans the minutes sum is the
clamp, not the duration — see the counterexample). -/
theorem flightSunSummary_percent_and_minutes_sums (plan : FlightPlan)
    (sampler : ℚ → SampleClass) (options : FlightSunSummaryOptions)
    (hchrono : plan.departureUtc < plan.arrivalUtc)
    (hdur : plan.durationMinutes = durationMinutes plan.departureUtc plan.arrivalUtc)
    (hsafe : plan.durationMinutes ≤ MAX_SAFE_INTEGER) :
    (computeFlightSunSummary plan sampler options).bucketPercent.sum = 100 ∧
    (computeFlightSunSummary plan sampler options).daylightPercent.sum = 100 ∧
    (computeFlightSunSummary plan sampler options).bucketMinutes.sum =
      plan.durationMinutes ∧
    (computeFlightSunSummary plan sampler options).daylightMinutes.sum =
      plan.durationMinutes := by
  have hd0 : 0 ≤ plan.durationMinutes := by
    rw [hdur]
    unfold durationMinutes
    rw [round_eq]
    have hq : (0 : ℚ) ≤ ((plan.arrivalUtc - plan.departureUtc : ℤ) : ℚ) / 60000 := by
      apply div_nonneg
      · exact_mod_cast (by omega : (0 : ℤ) ≤ plan.arrivalUtc - plan.departureUtc)
      · norm_num
    exact Int.le_floor.mpr (by push_cast at hq ⊢; linarith)
  obtain ⟨h1, h2, h3, h4⟩ :=
    computeFlightSunSummary_sums plan sampler options (by omega)
  refine ⟨h1, h2, ?_, ?_⟩
  · rw [h3]
    omega
  · rw [h4]
    omega

/-- C1 witness: a one-minute flight satisfies the hypotheses and the sums. -/
theorem flightSunSummary_percent_and_minutes_sums_witness :
    ((0 : ℤ) < 60000) ∧ ((1 : ℤ) = durationMinutes 0 60000) ∧
      ((1 : ℤ) ≤ MAX_SAFE_INTEGER) ∧
    ((computeFlightSunSummary
      { departureAirport :=
          { id := 0, name := "A", city := "A", country := "A", iata := none,
            icao := none, location := { lat := 0, lon := 0 }, timeZone := "UTC" },
        arrivalAirport :=
          { id := 1, name := "B", city := "B", country := "B", iata := none,
            icao := none, location := { lat := 0, lon := 1 }, timeZone := "UTC" },
        departureTime := { millis := 0 }, arrivalTime := { millis := 60000 },
        departureUtc := 0, arrivalUtc := 60000, durationMinutes := 1,
        path := { from' := { lat := 0, lon := 0 }, to' := { lat := 0, lon := 1 },
                  distanceMeters := 0, centralAngle := 0 } }
      (fun _ => ⟨DaylightStatus.day, SunSide.left⟩) {}).bucketPercent.sum = 100 ∧
     (computeFlightSunSummary
      { departureAirport :=
          { id := 0, name := "A", city := "A", country := "A", iata := none,
            icao := none, location := { lat := 0, lon := 0 }, timeZone := "UTC" },
        arrivalAirport :=
          { id := 1, name := "B", city := "B", country := "B", iata := none,
            icao := none, location := { lat := 0, lon := 1 }, timeZone := "UTC" },
        departureTime := { millis := 0 }, arrivalTime := { millis := 60000 },
        departureUtc := 0, arrivalUtc := 60000, durationMinutes := 1,
        path := { from' := { lat := 0, lon := 0 }, to' := { lat := 0, lon := 1 },
                  distanceMeters := 0, centralAngle := 0 } }
      (fun _ => ⟨DaylightStatus.day, SunSide.left⟩) {}).bucketMinutes.sum = 1) := by
  have hdur : (1 : ℤ) = durationMinutes 0 60000 := by
    unfold durationMinutes
    have h : ((60000 - 0 : ℤ) : ℚ) / 60000 = ((1 : ℤ) : ℚ) := by norm_num
    rw [h, round_intCast]
  refine ⟨by norm_num, hdur, by norm_num [MAX_SAFE_INTEGER], ?_, ?_⟩
  · exact (flightSunSummary_percent_and_minutes_sums _
      (fun _ => ⟨DaylightStatus.day, SunSide.left⟩) {} (by norm_num) hdur
      (by norm_num [MAX_SAFE_INTEGER])).1
  · exact (flightSunSummary_percent_and_minutes_sums _
      (fun _ => ⟨DaylightStatus.day, SunSide.left⟩) {} (by norm_num) hdur
      (by norm_num [MAX_SAFE_INTEGER])).2.2.1

/-- C1 counterexample to the unamended claim: a chronologically valid plan
whose rounded duration is `2^53` minutes (one past `MAX_SAFE_INTEGER`) has
direction-bucket minutes summing to the clamp `MAX_SAFE_INTEGER`, not to
`plan.durationMinutes`. -/
theorem flightSunSummary_minutes_sum_counterexample :
    ((0 : ℤ) < 540431955284459520000) ∧
    ((9007199254740992 : ℤ) = durationMinutes 0 540431955284459520000) ∧
    (computeFlightSunSummary
      { departureAirport :=
          { id := 0, name := "A", city := "A", country := "A", iata := none,
            icao := none, location := { lat := 0, lon := 0 }, timeZone := "UTC" },
        arrivalAirport :=
          { id := 1, name := "B", city := "B", country := "B", iata := none,
            icao := none, location := { lat := 0, lon := 1 }, timeZone := "UTC" },
        departureTime := { millis := 0 }, arrivalTime := { millis := 540431955284459520000 },
        departureUtc := 0, arrivalUtc := 540431955284459520000,
        durationMinutes := 9007199254740992,
        path := { from' := { lat := 0, lon := 0 }, to' := { lat := 0, lon := 1 },
                  distanceMeters := 0, centralAngle := 0 } }
      (fun _ => ⟨DaylightStatus.day, SunSide.left⟩) {}).bucketMinutes.sum ≠
      (9007199254740992 : ℤ) := by
  refine ⟨by norm_num, ?_, ?_⟩
  · unfold durationMinutes
    have h : ((540431955284459520000 - 0 : ℤ) : ℚ) / 60000 =
        ((9007199254740992 : ℤ) : ℚ) := by norm_num
    rw [h, round_intCast]
  · have h := (computeFlightSunSummary_sums
      { departureAirport :=
          { id := 0, name := "A", city := "A", country := "A", iata := none,
            icao := none, location := { lat := 0, lon := 0 }, timeZone := "UTC" },
        arrivalAirport :=
          { id := 1, name := "B", city := "B", country := "B", iata := none,
            icao := none, location := { lat := 0, lon := 1 }, timeZone := "UTC" },
        departureTime := { millis := 0 }, arrivalTime := { millis := 540431955284459520000 },
        departureUtc := 0, arrivalUtc := 540431955284459520000,
        durationMinutes := 9007199254740992,
        path := { from' := { lat := 0, lon := 0 }, to' := { lat := 0, lon := 1 },
                  distanceMeters := 0, centralAngle := 0 } }
      (fun _ => ⟨DaylightStatus.day, SunSide.left⟩) {} (by norm_num)).2.2.1
    rw [h]
    norm_num [MAX_SAFE_INTEGER]

/-- C9 (amended).  `allocateByLargestRemainder` on a finite total and a
NONEMPTY input list returns normally (`allocateByLargestRemainderE` is
`some`) with a list of the input's length whose entries are all
non-negative; non-finite and non-positive entries are first sanitized to
zero (allocating over the sanitized values gives the same result); the
output sums to `max 0 ⌊total⌋` — PROVIDED `⌊total⌋` does not exceed
`MAX_SAFE_INTEGER`, since the source clamps the target at
`Number.MAX_SAFE_INTEGER`.  On the EMPTY input list with a positive clamped
target the source does not return at all: the remainder loop indexes
`indexed[k % 0].i` and throws a TypeError (`none`). -/
theorem allocateByLargestRemainder_props (xs : List JsNum) (q : ℚ)
    (hsafe : ⌊q⌋ ≤ MAX_SAFE_INTEGER) :
    (xs ≠ [] →
      allocateByLargestRemainderE xs (JsNum.num q) =
        some (allocateByLargestRemainder xs (JsNum.num q)) ∧
      (allocateByLargestRemainder xs (JsNum.num q)).length = xs.length ∧
      (∀ x ∈ allocateByLargestRemainder xs (JsNum.num q), 0 ≤ x) ∧
      allocateByLargestRemainder xs (JsNum.num q) =
        allocateByLargestRemainder (xs.map fun v => JsNum.num (safePos v)) (JsNum.num q) ∧
      (allocateByLargestRemainder xs (JsNum.num q)).sum = max 0 ⌊q⌋) ∧
    (1 ≤ ⌊q⌋ → allocateByLargestRemainderE [] (JsNum.num q) = none) := by
  constructor
  · intro hne
    refine ⟨?_, length_allocateByLargestRemainder xs _,
      nonneg_allocateByLargestRemainder xs _,
      allocateByLargestRemainder_sanitized xs _, ?_⟩
    · unfold allocateByLargestRemainderE allocateByLargestRemainder
      dsimp only
      by_cases h0 : clampInt (JsNum.num q) 0 MAX_SAFE_INTEGER = 0
      · rw [if_pos h0, if_pos h0]
      · rw [if_neg h0, if_neg h0, if_neg hne]
    · rw [sum_allocateByLargestRemainder _ _ hne]
      simp only [clampInt]
      unfold MAX_SAFE_INTEGER at *
      omega
  · intro h1
    unfold allocateByLargestRemainderE
    dsimp only
    have h0 : clampInt (JsNum.num q) 0 MAX_SAFE_INTEGER ≠ 0 := by
      simp only [clampInt]
      unfold MAX_SAFE_INTEGER at *
      omega
    rw [if_neg h0, if_pos rfl]

/-- C9 witness: allocating total `10` over `[6, 4]` returns normally and
sums to `10`, while the empty list with total `10` throws. -/
theorem allocateByLargestRemainder_props_witness :
    (⌊(10 : ℚ)⌋ ≤ MAX_SAFE_INTEGER) ∧
    ([JsNum.num 6, JsNum.num 4] ≠ ([] : List JsNum)) ∧ ((1 : ℤ) ≤ ⌊(10 : ℚ)⌋) ∧
    (allocateByLargestRemainder [JsNum.num 6, JsNum.num 4] (JsNum.num 10)).sum =
      max 0 ⌊(10 : ℚ)⌋ ∧
    allocateByLargestRemainderE [] (JsNum.num 10) = none := by
  have h10 : ⌊(10 : ℚ)⌋ = (10 : ℤ) := by
    rw [show (10 : ℚ) = ((10 : ℤ) : ℚ) by norm_num, Int.floor_intCast]
  have hs : ⌊(10 : ℚ)⌋ ≤ MAX_SAFE_INTEGER := by
    rw [h10]
    unfold MAX_SAFE_INTEGER
    omega
  exact ⟨hs, by simp, by rw [h10]; omega,
    ((allocateByLargestRemainder_props [JsNum.num 6, JsNum.num 4] 10 hs).1
      (by simp)).2.2.2.2,
    (allocateByLargestRemainder_props [JsNum.num 6, JsNum.num 4] 10 hs).2
      (by rw [h10]; omega)⟩

/-- C9 counterexample to the unamended claim: on the empty list with total
`100` the source throws a TypeError instead of returning a list, and with
total `2^53` (one past `MAX_SAFE_INTEGER`) the output sums to the clamp,
not to `max 0 ⌊total⌋`. -/
theorem allocateByLargestRemainder_counterexample :
    allocateByLargestRemainderE [] (JsNum.num 100) = none ∧
    (allocateByLargestRemainder [JsNum.num 1] (JsNum.num 9007199254740992)).sum ≠
      max 0 ⌊(9007199254740992 : ℚ)⌋ := by
  constructor
  · unfold allocateByLargestRemainderE
    dsimp only
    have h0 : clampInt (JsNum.num (100 : ℚ)) 0 MAX_SAFE_INTEGER ≠ 0 := by
      simp only [clampInt]
      rw [show (100 : ℚ) = ((100 : ℤ) : ℚ) by norm_num, Int.floor_intCast]
      unfold MAX_SAFE_INTEGER
      omega
    rw [if_neg h0, if_pos rfl]
  · have hf : ⌊(9007199254740992 : ℚ)⌋ = (9007199254740992 : ℤ) := by
      rw [show (9007199254740992 : ℚ) = ((9007199254740992 : ℤ) : ℚ) by norm_num,
        Int.floor_intCast]
    rw [sum_allocateByLargestRemainder _ _ (by simp), hf]
    simp only [clampInt]
    rw [hf]
    unfold MAX_SAFE_INTEGER
    omega

/-- C2 witness: the exact split `[50, 50]` satisfies the hypotheses, and the
minimum-percent guarantees hold for it. -/
theorem allocatePercentagesWithMinimum_exact_spec_witness :
    (∀ q ∈ [(50 : ℚ), 50], 0 ≤ q) ∧ ([(50 : ℚ), 50].sum = 100) ∧
    ((([(50 : ℚ), 50].countP fun q => decide (0 < q)) * 1 ≤ 100 →
      ∀ i, i < [(50 : ℚ), 50].length → 0 < [(50 : ℚ), 50].getD i 0 →
        1 ≤ (allocatePercentagesWithMinimum ([(50 : ℚ), 50].map JsNum.num) (JsNum.num 100)
          (JsNum.num 1)).getD i 0) ∧
    (∀ i, i < [(50 : ℚ), 50].length → [(50 : ℚ), 50].getD i 0 = 0 →
      (allocatePercentagesWithMinimum ([(50 : ℚ), 50].map JsNum.num) (JsNum.num 100)
        (JsNum.num 1)).getD i 0 = 0) ∧
    (100 < ([(50 : ℚ), 50].countP fun q => decide (0 < q)) * 1 →
      allocatePercentagesWithMinimum ([(50 : ℚ), 50].map JsNum.num) (JsNum.num 100)
          (JsNum.num 1) =
        allocateByLargestRemainder ([(50 : ℚ), 50].map JsNum.num) (JsNum.num 100))) :=
  ⟨by decide, by norm_num [List.sum_cons, List.sum_nil],
    allocatePercentagesWithMinimum_exact_spec [50, 50] (by decide)
      (by norm_num [List.sum_cons, List.sum_nil])⟩

/-- C3 counterexample: a sun altitude of exactly `0°` is classified as
`twilight`, not `day` (the source's day test is the strict `altitudeDeg > 0`). -/
theorem classifyDaylight_zero_not_day : classifyDaylight 0 ≠ DaylightStatus.day := by
  unfold classifyDaylight
  dsimp only
  rw [zero_mul, zero_div, if_neg (by norm_num), if_pos (by norm_num)]
  decide

/-- C3 (amended).  `classifyDaylight` maps an altitude of exactly `0°` to
`twilight` (not `day`: the day branch requires strictly positive altitude),
exactly `-6°` to `twilight`, and `-6.0001°` to `night`. -/
theorem classifyDaylight_boundary_values :
    classifyDaylight 0 = DaylightStatus.twilight ∧
    classifyDaylight (-6 * (Real.pi / 180)) = DaylightStatus.twilight ∧
    classifyDaylight (-6.0001 * (Real.pi / 180)) = DaylightStatus.night := by
  have hpi := Real.pi_ne_zero
  have h1 : (0 : ℝ) * 180 / Real.pi = 0 := by rw [zero_mul, zero_div]
  have h2 : (-6 * (Real.pi / 180)) * 180 / Real.pi = -6 := by
    field_simp
    ring
  have h3 : (-6.0001 * (Real.pi / 180)) * 180 / Real.pi = -6.0001 := by
    field_simp
    ring
  refine ⟨?_, ?_, ?_⟩ <;> unfold classifyDaylight <;> dsimp only
  · rw [h1, if_neg (by norm_num), if_pos (by norm_num)]
  · rw [h2, if_neg (by norm_num), if_pos (by norm_num)]
  · rw [h3, if_neg (by norm_num), if_neg (by norm_num)]

/-- C4.  `createFlightPlan` rejects the construction (returns the
chronology error, producing no `FlightPlan` value) exactly when the arrival
UTC instant is at or before the departure UTC instant, and returns a
validated plan when the arrival is strictly after the departure. -/
theorem createFlightPlan_chronology (depA arrA : Airport)
    (depT arrT : ZonedDateTime) :
    (arrT.millis ≤ depT.millis →
      createFlightPlan depA arrA depT arrT =
        Except.error ChronologyError.arrivalNotAfterDeparture) ∧
    (depT.millis < arrT.millis →
      ∃ plan, createFlightPlan depA arrA depT arrT = Except.ok plan ∧
        plan.departureUtc = depT.millis ∧ plan.arrivalUtc = arrT.millis) := by
  constructor
  · intro h
    unfold createFlightPlan
    dsimp only
    rw [if_pos h]
  · intro h
    unfold createFlightPlan
    dsimp only
    rw [if_neg (by omega)]
    exact ⟨_, rfl, rfl, rfl⟩

/-- C4 witness: simultaneous instants are rejected, and a one-millisecond
flight is accepted. -/
theorem createFlightPlan_chronology_witness :
    ((0 : ℤ) ≤ 0 ∧
      createFlightPlan
        { id := 0, name := "A", city := "A", country := "A", iata := none,
          icao := none, location := { lat := 0, lon := 0 }, timeZone := "UTC" }
        { id := 1, name := "B", city := "B", country := "B", iata := none,
          icao := none, location := { lat := 0, lon := 1 }, timeZone := "UTC" }
        { millis := 0 } { millis := 0 } =
        Except.error ChronologyError.arrivalNotAfterDeparture) ∧
    ((0 : ℤ) < 1 ∧
      ∃ plan, createFlightPlan
        { id := 0, name := "A", city := "A", country := "A", iata := none,
          icao := none, location := { lat := 0, lon := 0 }, timeZone := "UTC" }
        { id := 1, name := "B", city := "B", country := "B", iata := none,
          icao := none, location := { lat := 0, lon := 1 }, timeZone := "UTC" }
        { millis := 0 } { millis := 1 } = Except.ok plan ∧
        plan.departureUtc = 0 ∧ plan.arrivalUtc = 1) :=
  ⟨⟨le_refl 0, (createFlightPlan_chronology _ _ { millis := 0 } { millis := 0 }).1
      (le_refl 0)⟩,
   ⟨by norm_num, (createFlightPlan_chronology _ _ { millis := 0 } { millis := 1 }).2
      (by norm_num)⟩⟩

/-- C10.  The subsolar latitude is always within the Earth's obliquity:
`declination` is the arcsine of `sin(E)` times a sine bounded by `1`, so the
latitude in degrees has absolute value at most `23.4397`. -/
theorem getSubsolarPoint_lat_bounded (ms : ℝ) :
    |(getSubsolarPoint ms).lat| ≤ 23.4397 := by
  unfold getSubsolarPoint
  dsimp only
  unfold sunCoords
  dsimp only
  unfold declination
  set L := eclipticLongitude (solarMeanAnomaly (toDays ms)) with hLdef
  have hπ : (0 : ℝ) < Real.pi := Real.pi_pos
  have hE0 : (0 : ℝ) ≤ obliquityE := by
    unfold obliquityE sunRAD
    positivity
  have hE2 : obliquityE ≤ Real.pi / 2 := by
    unfold obliquityE sunRAD
    nlinarith
  have hsinE : 0 ≤ Real.sin obliquityE :=
    Real.sin_nonneg_of_nonneg_of_le_pi hE0 (by linarith)
  have harg : Real.sin 0 * Real.cos obliquityE + Real.cos 0 * Real.sin obliquityE * Real.sin L
      = Real.sin obliquityE * Real.sin L := by
    rw [Real.sin_zero, Real.cos_zero]
    ring
  have hub : Real.sin obliquityE * Real.sin L ≤ Real.sin obliquityE := by
    nlinarith [Real.sin_le_one L, Real.neg_one_le_sin L]
  have hlb : -(Real.sin obliquityE) ≤ Real.sin obliquityE * Real.sin L := by
    nlinarith [Real.sin_le_one L, Real.neg_one_le_sin L]
  have hup : Real.arcsin (Real.sin obliquityE * Real.sin L) ≤ obliquityE := by
    have h := Real.monotone_arcsin hub
    rwa [Real.arcsin_sin (by linarith) (by linarith)] at h
  have hdown : -obliquityE ≤ Real.arcsin (Real.sin obliquityE * Real.sin L) := by
    have h := Real.monotone_arcsin hlb
    rw [Real.arcsin_neg, Real.arcsin_sin (by linarith) (by linarith)] at h
    linarith
  have habs : |Real.arcsin (Real.sin obliquityE * Real.sin L)| ≤ obliquityE :=
    abs_le.mpr ⟨hdown, hup⟩
  rw [harg, abs_div, abs_of_pos hπ, abs_mul,
    (by norm_num : |(180 : ℝ)| = 180), div_le_iff hπ]
  have hEe : obliquityE = Real.pi / 180 * 23.4397 := by
    unfold obliquityE sunRAD
    ring
  linarith [habs]

/-- C7.  `projectEquirectangular` clamps its input to the valid lat/lon
ranges before projecting: on any input (in range or not) and any
non-negative canvas the output lies in `[0,width] × [0,height]`, and the
result coincides with projecting the input clamped to the nearest valid
edge. -/
theorem projectEquirectangular_bounds_and_clamps (p : GeoPoint) (w h : ℝ)
    (hw : 0 ≤ w) (hh : 0 ≤ h) :
    0 ≤ (projectEquirectangular p w h).x ∧ (projectEquirectangular p w h).x ≤ w ∧
    0 ≤ (projectEquirectangular p w h).y ∧ (projectEquirectangular p w h).y ≤ h ∧
    projectEquirectangular p w h = projectEquirectangular (clampToValidRanges p) w h := by
  unfold projectEquirectangular clampToValidRanges
  dsimp only
  have hlat1 : (-90 : ℝ) ≤ max (-90) (min 90 p.lat) := le_max_left _ _
  have hlat2 : max (-90 : ℝ) (min 90 p.lat) ≤ 90 := max_le (by norm_num) (min_le_left _ _)
  have hlon1 : (-180 : ℝ) ≤ max (-180) (min 180 p.lon) := le_max_left _ _
  have hlon2 : max (-180 : ℝ) (min 180 p.lon) ≤ 180 :=
    max_le (by norm_num) (min_le_left _ _)
  refine ⟨?_, ?_, ?_, ?_, ?_⟩
  · exact mul_nonneg (div_nonneg (by linarith) (by norm_num)) hw
  · have hf : (max (-180) (min 180 p.lon) + 180) / 360 ≤ 1 := by
      rw [div_le_one (by norm_num)]
      linarith
    calc ((max (-180) (min 180 p.lon) + 180) / 360) * w
        ≤ 1 * w := mul_le_mul_of_nonneg_right hf hw
      _ = w := one_mul w
  · exact mul_nonneg (div_nonneg (by linarith) (by norm_num)) hh
  · have hf : (90 - max (-90) (min 90 p.lat)) / 180 ≤ 1 := by
      rw [div_le_one (by norm_num)]
      linarith
    calc ((90 - max (-90) (min 90 p.lat)) / 180) * h
        ≤ 1 * h := mul_le_mul_of_nonneg_right hf hh
      _ = h := one_mul h
  · have hlat : min (90 : ℝ) (max (-90) (min 90 p.lat)) = max (-90) (min 90 p.lat) :=
      min_eq_right hlat2
    have hlon : min (180 : ℝ) (max (-180) (min 180 p.lon)) = max (-180) (min 180 p.lon) :=
      min_eq_right hlon2
    rw [hlat, hlon, max_eq_right hlat1, max_eq_right hlon1]

/-- C7 witness: the out-of-range point `(lat 95, lon 200)` on a
`1800 × 900` canvas. -/
theorem projectEquirectangular_bounds_and_clamps_witness :
    ((0 : ℝ) ≤ 1800) ∧ ((0 : ℝ) ≤ 900) ∧
    (0 ≤ (projectEquirectangular ⟨95, 200⟩ 1800 900).x ∧
     (projectEquirectangular ⟨95, 200⟩ 1800 900).x ≤ 1800 ∧
     0 ≤ (projectEquirectangular ⟨95, 200⟩ 1800 900).y ∧
     (projectEquirectangular ⟨95, 200⟩ 1800 900).y ≤ 900 ∧
     projectEquirectangular ⟨95, 200⟩ 1800 900 =
       projectEquirectangular (clampToValidRanges ⟨95, 200⟩) 1800 900) :=
  ⟨by norm_num, by norm_num,
    projectEquirectangular_bounds_and_clamps ⟨95, 200⟩ 1800 900
      (by norm_num) (by norm_num)⟩

/-- C5.  `computeDayNightOverlay` builds its overlay from the instant's
subsolar point, and whenever that point's latitude satisfies
`|lat| ≤ EQUINOX_LAT_EPS_DEG` (the equinox degeneracy) on a positive canvas,
the terminator path is exactly the two vertical meridian segments `90°` west
and east of the subsolar longitude — hence it contains at most two distinct
x-coordinates. -/
theorem computeDayNightOverlay_equinox_terminator
    (tb : SubsolarPoint → ℝ → ℝ → ℤ → List PathCmd) (s : SubsolarPoint)
    (width height : ℝ) (samples : ℤ)
    (hw : 0 < width) (hh : 0 < height) (heq : |s.lat| ≤ EQUINOX_LAT_EPS_DEG) :
    (∀ timestamp, computeDayNightOverlay tb timestamp width height samples =
      computeDayNightOverlayFrom tb (getSubsolarPoint timestamp) width height samples) ∧
    (computeDayNightOverlayFrom tb s width height samples).terminatorPath =
      verticalLinePath (lonToX (normalizeLon (s.lon - 90)) width) height ++
      verticalLinePath (lonToX (normalizeLon (s.lon + 90)) width) height ∧
    ∃ a b : ℝ,
      (computeDayNightOverlayFrom tb s width height samples).terminatorPath =
        [PathCmd.move a 0, PathCmd.line a (fmt height),
         PathCmd.move b 0, PathCmd.line b (fmt height)] := by
  have hcond : ¬ (width ≤ 0 ∨ height ≤ 0) := by
    push_neg
    exact ⟨hw, hh⟩
  refine ⟨fun _ => rfl, ?_, ?_⟩
  · unfold computeDayNightOverlayFrom
    dsimp only
    rw [if_neg hcond, if_pos heq]
    unfold computeEquinoxOverlay
    dsimp only
    split_ifs <;> rfl
  · unfold computeDayNightOverlayFrom
    dsimp only
    rw [if_neg hcond, if_pos heq]
    unfold computeEquinoxOverlay
    dsimp only
    split_ifs
    · exact ⟨fmt (max 0 (lonToX (normalizeLon (s.lon - 90)) width)),
        fmt (max 0 (lonToX (normalizeLon (s.lon + 90)) width)), rfl⟩
    · exact ⟨fmt (max 0 (lonToX (normalizeLon (s.lon - 90)) width)),
        fmt (max 0 (lonToX (normalizeLon (s.lon + 90)) width)), rfl⟩

/-- C5 witness: the subsolar point `(0°, 0°)` on a `1800 × 900` canvas. -/
theorem computeDayNightOverlay_equinox_terminator_witness :
    ((0 : ℝ) < 1800) ∧ ((0 : ℝ) < 900) ∧
      (|(0 : ℝ)| ≤ EQUINOX_LAT_EPS_DEG) ∧
    ((computeDayNightOverlayFrom (fun _ _ _ _ => []) ⟨0, 0⟩ 1800 900 180).terminatorPath =
      verticalLinePath (lonToX (normalizeLon ((0 : ℝ) - 90)) 1800) 900 ++
      verticalLinePath (lonToX (normalizeLon ((0 : ℝ) + 90)) 1800) 900 ∧
    ∃ a b : ℝ,
      (computeDayNightOverlayFrom (fun _ _ _ _ => []) ⟨0, 0⟩ 1800 900 180).terminatorPath =
        [PathCmd.move a 0, PathCmd.line a (fmt 900),
         PathCmd.move b 0, PathCmd.line b (fmt 900)]) := by
  have heps : |(0 : ℝ)| ≤ EQUINOX_LAT_EPS_DEG := by
    rw [abs_zero]
    unfold EQUINOX_LAT_EPS_DEG
    norm_num
  exact ⟨by norm_num, by norm_num, heps,
    (computeDayNightOverlay_equinox_terminator (fun _ _ _ _ => []) ⟨0, 0⟩ 1800 900 180
      (by norm_num) (by norm_num) heps).2⟩

theorem splitStep_inv (width : ℝ) (hw : 0 < width) (pts : List ProjectedPoint)
    (acc : List (List ProjectedPoint) × List ProjectedPoint) (point : ProjectedPoint)
    (hpt : 0 ≤ point.x ∧ point.x ≤ width) (hptm : point ∈ pts)
    (hinv : seamInv width pts acc) :
    seamInv width pts (splitStep width acc point) := by
  obtain ⟨hemp, hbnd, hlstm, hne, hchain, hcur, hlink⟩ := hinv
  unfold splitStep
  rcases hlast : acc.2.getLast? with _ | prev
  · -- first point of the polyline: start the current segment
    have hc2 : acc.2 = [] := List.getLast?_eq_none_iff.mp hlast
    have hc1 : acc.1 = [] := hemp hc2
    unfold seamInv
    dsimp only
    refine ⟨fun _ => hc1, ?_, ?_, ?_, ?_, List.chain'_singleton point, ?_⟩
    · intro p hp
      rw [List.mem_singleton] at hp
      subst hp
      exact hpt
    · intro p hp
      rw [List.getLast?_singleton] at hp
      rw [← Option.some_inj.mp hp]
      exact hptm
    · intro s hs
      rw [hc1] at hs
      exact absurd hs (List.not_mem_nil s)
    · intro s hs
      rw [hc1] at hs
      exact absurd hs (List.not_mem_nil s)
    · rw [hc1, List.nil_append]
      exact List.chain'_singleton _
  · -- a previous point exists
    have hcne : acc.2 ≠ [] := by
      intro hc
      rw [hc] at hlast
      exact Option.noConfusion hlast
    have hprevb : 0 ≤ prev.x ∧ prev.x ≤ width :=
      hbnd prev (List.mem_of_mem_getLast? hlast)
    have hprevm : prev ∈ pts := hlstm prev hlast
    obtain ⟨r1, hdec⟩ : ∃ r1, acc.2 = r1 ++ [prev] := by
      refine ⟨acc.2.dropLast, ?_⟩
      have h1 := List.dropLast_append_getLast hcne
      have h3 := List.getLast?_eq_getLast acc.2 hcne
      rw [hlast] at h3
      have h2 : acc.2.getLast hcne = prev := (Option.some_inj.mp h3).symm
      rw [← h2]
      exact h1.symm
    have hheadapp : ∀ l' : List ProjectedPoint, (acc.2 ++ l').head? = acc.2.head? := by
      intro l'
      rcases hc : acc.2 with _ | ⟨a, t⟩
      · exact absurd hc hcne
      · rfl
    have hcross_ext : ∀ (s' l' : List ProjectedPoint),
        seamCross width pts s' acc.2 → seamCross width pts s' (acc.2 ++ l') := by
      intro s' l' h
      rcases h with ⟨a, b, hla, hhb, hedge, ham, hbm⟩ |
        ⟨q1, u, v, q2, yc, hs, ht, hy⟩ | ⟨q1, u, v, q2, yc, hs, ht, hy⟩
      · refine Or.inl ⟨a, b, hla, ?_, hedge, ham, hbm⟩
        rw [hheadapp l']
        exact hhb
      · refine Or.inr (Or.inl ⟨q1, u, v, q2 ++ l', yc, hs, ?_, hy⟩)
        rw [ht, List.cons_append, List.cons_append]
      · refine Or.inr (Or.inr ⟨q1, u, v, q2 ++ l', yc, hs, ?_, hy⟩)
        rw [ht, List.cons_append, List.cons_append]
    have hlink1 : ∀ l' : List ProjectedPoint,
        List.Chain' (seamCross width pts) (acc.1 ++ [acc.2 ++ l']) := by
      intro l'
      rw [List.chain'_append] at hlink ⊢
      refine ⟨hlink.1, List.chain'_singleton _, ?_⟩
      intro x hx y hy
      rw [List.head?_cons, Option.mem_some_iff] at hy
      subst hy
      exact hcross_ext x l' (hlink.2.2 x hx acc.2 (by rw [List.head?_cons]; rfl))
    have hchainext : ∀ q : ProjectedPoint, seamNear width prev q →
        (acc.2 ++ [q]).Chain' (seamNear width) := by
      intro q hq
      rw [List.chain'_append]
      refine ⟨hcur, List.chain'_singleton q, ?_⟩
      intro x hx y hy
      rw [hlast, Option.mem_some_iff] at hx
      rw [List.head?_cons, Option.mem_some_iff] at hy
      subst hx
      subst hy
      exact hq
    have hlinkbreak : ∀ c' nc : List ProjectedPoint,
        List.Chain' (seamCross width pts) (acc.1 ++ [c']) →
        seamCross width pts c' nc →
        List.Chain' (seamCross width pts) ((acc.1 ++ [c']) ++ [nc]) := by
      intro c' nc hch hcn
      rw [List.chain'_append]
      refine ⟨hch, List.chain'_singleton _, ?_⟩
      intro x hx y hy
      rw [List.getLast?_concat, Option.mem_some_iff] at hx
      rw [List.head?_cons, Option.mem_some_iff] at hy
      subst hx
      subst hy
      exact hcn
    dsimp only
    split_ifs with h1 h2 h3 h4
    · -- no seam jump: extend the current segment
      unfold seamInv
      dsimp only
      refine ⟨fun h => absurd h (by simp), ?_, ?_, hne, hchain,
        hchainext point h1, hlink1 [point]⟩
      · intro p hp
        rcases List.mem_append.mp hp with h | h
        · exact hbnd p h
        · rw [List.mem_singleton] at h
          subst h
          exact hpt
      · intro p hp
        rw [List.getLast?_concat] at hp
        rw [← Option.some_inj.mp hp]
        exact hptm
    · -- westward wrap with zero denominator: break without inserting
      have hpx : prev.x = width := by linarith [hpt.1, hprevb.2]
      have hpt0 : point.x = 0 := by linarith
      unfold seamInv
      dsimp only
      refine ⟨fun h => absurd h (by simp), ?_, ?_, ?_, ?_,
        List.chain'_singleton point, ?_⟩
      · intro p hp
        rw [List.mem_singleton] at hp
        subst hp
        exact hpt
      · intro p hp
        rw [List.getLast?_singleton] at hp
        rw [← Option.some_inj.mp hp]
        exact hptm
      · intro s hs
        rcases List.mem_append.mp hs with h | h
        · exact hne s h
        · rw [List.mem_singleton] at h
          subst h
          exact hcne
      · intro s hs
        rcases List.mem_append.mp hs with h | h
        · exact hchain s h
        · rw [List.mem_singleton] at h
          subst h
          exact hcur
      · exact hlinkbreak acc.2 [point] hlink
          (Or.inl ⟨prev, point, hlast, rfl, Or.inl ⟨hpx, hpt0⟩, hprevm, hptm⟩)
    · -- westward wrap: insert the interpolated crossing point at both edges
      have hgap : width / 2 < prev.x - point.x := by
        have habs : width / 2 < |point.x - prev.x| := lt_of_not_le h1
        rw [abs_of_neg (by linarith)] at habs
        linarith
      unfold seamInv
      dsimp only
      refine ⟨fun h => absurd h (by simp), ?_, ?_, ?_, ?_, ?_, ?_⟩
      · intro p hp
        rcases List.mem_cons.mp hp with h | h
        · subst h
          exact ⟨le_refl 0, hw.le⟩
        · rw [List.mem_singleton] at h
          subst h
          exact hpt
      · intro p hp
        rw [List.getLast?_cons_cons, List.getLast?_singleton] at hp
        rw [← Option.some_inj.mp hp]
        exact hptm
      · intro s hs
        rcases List.mem_append.mp hs with h | h
        · exact hne s h
        · rw [List.mem_singleton] at h
          subst h
          simp
      · intro s hs
        rcases List.mem_append.mp hs with h | h
        · exact hchain s h
        · rw [List.mem_singleton] at h
          subst h
          refine hchainext _ ?_
          unfold seamNear
          dsimp only
          rw [abs_of_nonneg (by linarith [hprevb.2])]
          linarith [hpt.1]
      · rw [List.chain'_cons]
        refine ⟨?_, List.chain'_singleton point⟩
        unfold seamNear
        dsimp only
        rw [sub_zero, abs_of_nonneg hpt.1]
        linarith [hprevb.2]
      · refine hlinkbreak _ _ (hlink1 _) (Or.inr (Or.inl ⟨r1, prev, point, [],
          prev.y + (width - prev.x) / (point.x + width - prev.x) * (point.y - prev.y),
          ?_, rfl, rfl⟩))
        rw [hdec, List.append_assoc]
        rfl
    · -- eastward wrap with zero denominator: break without inserting
      have hpx : prev.x = 0 := by linarith [hpt.2, hprevb.1]
      have hptw : point.x = width := by linarith
      unfold seamInv
      dsimp only
      refine ⟨fun h => absurd h (by simp), ?_, ?_, ?_, ?_,
        List.chain'_singleton point, ?_⟩
      · intro p hp
        rw [List.mem_singleton] at hp
        subst hp
        exact hpt
      · intro p hp
        rw [List.getLast?_singleton] at hp
        rw [← Option.some_inj.mp hp]
        exact hptm
      · intro s hs
        rcases List.mem_append.mp hs with h | h
        · exact hne s h
        · rw [List.mem_singleton] at h
          subst h
          exact hcne
      · intro s hs
        rcases List.mem_append.mp hs with h | h
        · exact hchain s h
        · rw [List.mem_singleton] at h
          subst h
          exact hcur
      · exact hlinkbreak acc.2 [point] hlink
          (Or.inl ⟨prev, point, hlast, rfl, Or.inr ⟨hpx, hptw⟩, hprevm, hptm⟩)
    · -- eastward wrap: insert the interpolated crossing point at both edges
      have hgap : width / 2 < point.x - prev.x := by
        have habs : width / 2 < |point.x - prev.x| := lt_of_not_le h1
        rw [abs_of_nonneg (by linarith [not_lt.mp h2])] at habs
        linarith
      unfold seamInv
      dsimp only
      refine ⟨fun h => absurd h (by simp), ?_, ?_, ?_, ?_, ?_, ?_⟩
      · intro p hp
        rcases List.mem_cons.mp hp with h | h
        · subst h
          exact ⟨hw.le, le_refl width⟩
        · rw [List.mem_singleton] at h
          subst h
          exact hpt
      · intro p hp
        rw [List.getLast?_cons_cons, List.getLast?_singleton] at hp
        rw [← Option.some_inj.mp hp]
        exact hptm
      · intro s hs
        rcases List.mem_append.mp hs with h | h
        · exact hne s h
        · rw [List.mem_singleton] at h
          subst h
          simp
      · intro s hs
        rcases List.mem_append.mp hs with h | h
        · exact hchain s h
        · rw [List.mem_singleton] at h
          subst h
          refine hchainext _ ?_
          unfold seamNear
          dsimp only
          rw [zero_sub, abs_neg, abs_of_nonneg hprevb.1]
          linarith [hpt.2]
      · rw [List.chain'_cons]
        refine ⟨?_, List.chain'_singleton point⟩
        unfold seamNear
        dsimp only
        rw [abs_of_nonpos (by linarith [hpt.2])]
        linarith [hprevb.1]
      · refine hlinkbreak _ _ (hlink1 _) (Or.inr (Or.inr ⟨r1, prev, point, [],
          prev.y + (0 - prev.x) / (point.x - width - prev.x) * (point.y - prev.y),
          ?_, rfl, rfl⟩))
        rw [hdec, List.append_assoc]
        rfl

theorem splitStep_snd_ne (width : ℝ)
    (acc : List (List ProjectedPoint) × List ProjectedPoint) (point : ProjectedPoint) :
    (splitStep width acc point).2 ≠ [] := by
  unfold splitStep
  rcases hlast : acc.2.getLast? with _ | prev
  · simp
  · dsimp only
    split_ifs <;> simp

theorem splitFold_inv (width : ℝ) (hw : 0 < width) (pts : List ProjectedPoint) :
    ∀ l : List ProjectedPoint, (∀ p ∈ l, (0 ≤ p.x ∧ p.x ≤ width) ∧ p ∈ pts) →
      ∀ acc, seamInv width pts acc → seamInv width pts (l.foldl (splitStep width) acc) := by
  intro l
  induction l with
  | nil =>
    intro _ acc h
    exact h
  | cons p t ih =>
    intro hb acc h
    rw [List.foldl_cons]
    exact ih (fun q hq => hb q (List.mem_cons_of_mem _ hq)) _
      (splitStep_inv width hw pts acc p (hb p (List.mem_cons_self _ _)).1
        (hb p (List.mem_cons_self _ _)).2 h)

theorem seamCross_linked (width : ℝ) (pts : List ProjectedPoint)
    {s t : List ProjectedPoint} (h : seamCross width pts s t) : seamLinked width s t := by
  rcases h with ⟨a, b, hla, hhb, hedge, -, -⟩ |
    ⟨q1, u, v, q2, yc, hs, ht, -⟩ | ⟨q1, u, v, q2, yc, hs, ht, -⟩
  · rcases hedge with ⟨ha, hb2⟩ | ⟨ha, hb2⟩
    · exact Or.inl ⟨by rw [hla, Option.map_some', ha], by rw [hhb, Option.map_some', hb2]⟩
    · exact Or.inr ⟨by rw [hla, Option.map_some', ha], by rw [hhb, Option.map_some', hb2]⟩
  · subst hs
    subst ht
    refine Or.inl ⟨?_, rfl⟩
    rw [show q1 ++ [u, (⟨width, yc⟩ : ProjectedPoint)] =
        (q1 ++ [u]) ++ [(⟨width, yc⟩ : ProjectedPoint)] from by
      rw [List.append_assoc]; rfl, List.getLast?_concat, Option.map_some']
  · subst hs
    subst ht
    refine Or.inr ⟨?_, rfl⟩
    rw [show q1 ++ [u, (⟨0, yc⟩ : ProjectedPoint)] =
        (q1 ++ [u]) ++ [(⟨0, yc⟩ : ProjectedPoint)] from by
      rw [List.append_assoc]; rfl, List.getLast?_concat, Option.map_some']

/-- C8 (amended).  On a NONEMPTY projected polyline whose points all have
`x ∈ [0, width]` and a positive width, `splitPolylineAtMapSeam` emits one or
more nonempty sub-polylines; within each sub-polyline no consecutive pair of
points differs horizontally by more than `width / 2`; and each boundary
between consecutive emitted sub-polylines satisfies `seamCross`: unless the
interpolation denominator is zero (then the boundary is two original points
already sitting exactly on opposite map edges and nothing is inserted), the
crossing point computed by linear interpolation in `x` between the
neighboring points is inserted at BOTH edges with the same interpolated `y` —
at `x = width` ending one sub-polyline and `x = 0` starting the next for a
westward crossing, and at `x = 0` / `x = width` for an eastward one (the
original claim's fixed `width`-then-`0` order holds only westward, see the
counterexample); in particular consecutive sub-polylines always end/start on
opposite map edges (`seamLinked`).  The empty polyline yields zero
sub-polylines (see the counterexample), so the nonemptiness hypothesis is
necessary. -/
theorem splitPolylineAtMapSeam_spec (points : List ProjectedPoint) (width : ℝ)
    (hne : points ≠ []) (hw : 0 < width)
    (hb : ∀ p ∈ points, 0 ≤ p.x ∧ p.x ≤ width) :
    splitPolylineAtMapSeam points width ≠ [] ∧
    (∀ s ∈ splitPolylineAtMapSeam points width, s ≠ []) ∧
    (∀ s ∈ splitPolylineAtMapSeam points width, s.Chain' (seamNear width)) ∧
    List.Chain' (seamCross width points) (splitPolylineAtMapSeam points width) ∧
    List.Chain' (seamLinked width) (splitPolylineAtMapSeam points width) := by
  unfold splitPolylineAtMapSeam
  rw [if_neg (by linarith)]
  by_cases hlen : points.length ≤ 1
  · rw [if_pos hlen]
    have h1 : points.length = 1 := by
      have := List.length_pos.mpr hne
      omega
    obtain ⟨a, rfl⟩ := List.length_eq_one.mp h1
    rw [if_neg (by simp)]
    refine ⟨by simp, ?_, ?_, List.chain'_singleton _, List.chain'_singleton _⟩
    · intro s hs
      rw [List.mem_singleton] at hs
      subst hs
      simp
    · intro s hs
      rw [List.mem_singleton] at hs
      subst hs
      exact List.chain'_singleton a
  · rw [if_neg hlen]
    dsimp only
    have hinv0 : seamInv width points ([], []) := by
      refine ⟨fun _ => rfl, ?_, ?_, ?_, ?_, List.chain'_nil, ?_⟩
      · intro p hp
        exact absurd hp (List.not_mem_nil p)
      · intro p hp
        exact Option.noConfusion hp
      · intro s hs
        exact absurd hs (List.not_mem_nil s)
      · intro s hs
        exact absurd hs (List.not_mem_nil s)
      · rw [List.nil_append]
        exact List.chain'_singleton _
    obtain ⟨hemp, hbnd, hlstm, hne', hchain, hcur, hlink⟩ :=
      splitFold_inv width hw points points (fun p hp => ⟨hb p hp, hp⟩) ([], []) hinv0
    have hr2 : (points.foldl (splitStep width) ([], [])).2 ≠ [] := by
      rcases List.eq_nil_or_concat points with hc | ⟨L, b, hc⟩
      · exact absurd hc hne
      · rw [hc, List.concat_eq_append, List.foldl_append, List.foldl_cons, List.foldl_nil]
        exact splitStep_snd_ne width _ b
    rw [if_neg (by
      intro hc
      exact hr2 (List.isEmpty_iff.mp hc))]
    refine ⟨by simp, ?_, ?_, hlink,
      List.Chain'.imp (fun a b hab => seamCross_linked width points hab) hlink⟩
    · intro s hs
      rcases List.mem_append.mp hs with h | h
      · exact hne' s h
      · rw [List.mem_singleton] at h
        subst h
        exact hr2
    · intro s hs
      rcases List.mem_append.mp hs with h | h
      · exact hchain s h
      · rw [List.mem_singleton] at h
        subst h
        exact hcur

/-- C8 counterexample to the unamended claim: the empty polyline (vacuously
within `[0, width]`) yields zero sub-polylines, not "one or more"; and an
eastward seam crossing ends its sub-polyline at `x = 0` and restarts at
`x = width` — the opposite of the claimed fixed `width`-then-`0` edge
order. -/
theorem splitPolylineAtMapSeam_counterexample :
    splitPolylineAtMapSeam [] 100 = [] ∧
    splitPolylineAtMapSeam [⟨10, 0⟩, ⟨90, 0⟩] 100 =
      [[⟨10, 0⟩, ⟨0, 0⟩], [⟨100, 0⟩, ⟨90, 0⟩]] := by
  constructor
  · unfold splitPolylineAtMapSeam
    rw [if_neg (by norm_num : ¬ (100 : ℝ) ≤ 0), if_pos (by simp), if_pos (by simp)]
  · have h1 : splitStep 100 ([], []) ⟨10, 0⟩ = ([], [⟨10, 0⟩]) := rfl
    have h2 : splitStep 100 ([], [⟨10, 0⟩]) ⟨90, 0⟩ =
        ([[⟨10, 0⟩, ⟨0, 0⟩]], [⟨100, 0⟩, ⟨90, 0⟩]) := by
      unfold splitStep
      dsimp only [List.getLast?_singleton]
      rw [if_neg (by norm_num), if_neg (by norm_num), if_neg (by norm_num)]
      norm_num
    unfold splitPolylineAtMapSeam
    rw [if_neg (by norm_num : ¬ (100 : ℝ) ≤ 0), if_neg (by simp)]
    dsimp only
    rw [List.foldl_cons, h1, List.foldl_cons, h2, List.foldl_nil]
    rw [if_neg (by simp)]
    rfl

/-- C8 witness: a singleton polyline on a width-`100` map. -/
theorem splitPolylineAtMapSeam_spec_witness :
    (([⟨0, 0⟩] : List ProjectedPoint) ≠ []) ∧ ((0 : ℝ) < 100) ∧
    (∀ p ∈ ([⟨0, 0⟩] : List ProjectedPoint), 0 ≤ p.x ∧ p.x ≤ 100) ∧
    (splitPolylineAtMapSeam [⟨0, 0⟩] 100 ≠ [] ∧
     (∀ s ∈ splitPolylineAtMapSeam [⟨0, 0⟩] 100, s ≠ []) ∧
     (∀ s ∈ splitPolylineAtMapSeam [⟨0, 0⟩] 100, s.Chain' (seamNear 100)) ∧
     List.Chain' (seamCross 100 [⟨0, 0⟩]) (splitPolylineAtMapSeam [⟨0, 0⟩] 100) ∧
     List.Chain' (seamLinked 100) (splitPolylineAtMapSeam [⟨0, 0⟩] 100)) := by
  have hb : ∀ p ∈ ([⟨0, 0⟩] : List ProjectedPoint), 0 ≤ p.x ∧ p.x ≤ 100 := by
    intro p hp
    rw [List.mem_singleton] at hp
    subst hp
    exact ⟨le_refl 0, by norm_num⟩
  exact ⟨by simp, by norm_num, hb,
    splitPolylineAtMapSeam_spec [⟨0, 0⟩] 100 (by simp) (by norm_num) hb⟩

/-- `Math.atan2` recovers the angle of a vector written in polar form with a
positive radius, for angles in `(-π, π]`. -/
theorem atan2_cos_sin (c θ : ℝ) (hc : 0 < c) (h1 : -Real.pi < θ) (h2 : θ ≤ Real.pi) :
    atan2 (c * Real.sin θ) (c * Real.cos θ) = θ := by
  have hπ := Real.pi_pos
  rcases lt_trichotomy θ (Real.pi / 2) with hlt | heq | hgt
  · rcases lt_trichotomy θ (-(Real.pi / 2)) with hlt2 | heq2 | hgt2
    · -- θ ∈ (-π, -π/2): cos θ < 0 and sin θ < 0
      have hcos : Real.cos θ < 0 := by
        rw [← Real.cos_neg]
        exact Real.cos_neg_of_pi_div_two_lt_of_lt (by linarith) (by linarith)
      have hsin : Real.sin θ < 0 := by
        rw [← neg_pos, ← Real.sin_neg]
        exact Real.sin_pos_of_pos_of_lt_pi (by linarith) (by linarith)
      have hx : c * Real.cos θ < 0 := mul_neg_of_pos_of_neg hc hcos
      have hy : c * Real.sin θ < 0 := mul_neg_of_pos_of_neg hc hsin
      unfold atan2
      rw [if_neg (by linarith), if_neg (by rintro ⟨-, hy2⟩; linarith),
        if_pos ⟨hx, hy⟩, mul_div_mul_left _ _ (ne_of_gt hc),
        ← Real.tan_eq_sin_div_cos, ← Real.tan_add_pi,
        Real.arctan_tan (by linarith) (by linarith)]
      ring
    · -- θ = -π/2
      subst heq2
      rw [Real.sin_neg, Real.sin_pi_div_two, Real.cos_neg, Real.cos_pi_div_two,
        mul_zero, mul_neg, mul_one]
      unfold atan2
      rw [if_neg (lt_irrefl 0), if_neg (by rintro ⟨hx, -⟩; exact lt_irrefl 0 hx),
        if_neg (by rintro ⟨hx, -⟩; exact lt_irrefl 0 hx),
        if_neg (by rintro ⟨-, hy⟩; linarith), if_pos ⟨rfl, by linarith⟩]
    · -- θ ∈ (-π/2, π/2): cos θ > 0
      have hcos : 0 < Real.cos θ := Real.cos_pos_of_mem_Ioo ⟨hgt2, hlt⟩
      have hx : 0 < c * Real.cos θ := mul_pos hc hcos
      unfold atan2
      rw [if_pos hx, mul_div_mul_left _ _ (ne_of_gt hc),
        ← Real.tan_eq_sin_div_cos, Real.arctan_tan hgt2 hlt]
  · -- θ = π/2
    subst heq
    rw [Real.sin_pi_div_two, Real.cos_pi_div_two, mul_zero, mul_one]
    unfold atan2
    rw [if_neg (lt_irrefl 0), if_neg (by rintro ⟨hx, -⟩; exact lt_irrefl 0 hx),
      if_neg (by rintro ⟨hx, -⟩; exact lt_irrefl 0 hx), if_pos ⟨rfl, hc⟩]
  · -- θ ∈ (π/2, π]: cos θ < 0 and sin θ ≥ 0
    have hcos : Real.cos θ < 0 :=
      Real.cos_neg_of_pi_div_two_lt_of_lt hgt (by linarith)
    have hsin : 0 ≤ Real.sin θ :=
      Real.sin_nonneg_of_nonneg_of_le_pi (by linarith) h2
    have hx : c * Real.cos θ < 0 := mul_neg_of_pos_of_neg hc hcos
    have hy : 0 ≤ c * Real.sin θ := mul_nonneg hc.le hsin
    unfold atan2
    rw [if_neg (by linarith), if_pos ⟨hx, hy⟩,
      mul_div_mul_left _ _ (ne_of_gt hc), ← Real.tan_eq_sin_div_cos,
      ← Real.tan_sub_pi, Real.arctan_tan (by linarith) (by linarith)]
    ring

/-- Converting a geographic point to a unit vector and back recovers the
point exactly when the latitude is strictly inside `(-90, 90)` and the
longitude lies in `(-180, 180]`. -/
theorem fromCartesian_toCartesian (p : GeoPoint)
    (hlat1 : -90 < p.lat) (hlat2 : p.lat < 90)
    (hlon1 : -180 < p.lon) (hlon2 : p.lon ≤ 180) :
    fromCartesian (toCartesian p) = p := by
  unfold fromCartesian toCartesian
  dsimp only
  have hπ := Real.pi_pos
  have hφ1 : -(Real.pi / 2) < toRadians p.lat := by
    unfold toRadians
    nlinarith
  have hφ2 : toRadians p.lat < Real.pi / 2 := by
    unfold toRadians
    nlinarith
  have hl1 : -Real.pi < toRadians p.lon := by
    unfold toRadians
    nlinarith
  have hl2 : toRadians p.lon ≤ Real.pi := by
    unfold toRadians
    nlinarith
  have hcos : 0 < Real.cos (toRadians p.lat) :=
    Real.cos_pos_of_mem_Ioo ⟨hφ1, hφ2⟩
  have hlon' : atan2 (Real.cos (toRadians p.lat) * Real.sin (toRadians p.lon))
      (Real.cos (toRadians p.lat) * Real.cos (toRadians p.lon)) = toRadians p.lon :=
    atan2_cos_sin _ _ hcos hl1 hl2
  have hhyp : Real.sqrt
      (Real.cos (toRadians p.lat) * Real.cos (toRadians p.lon) *
        (Real.cos (toRadians p.lat) * Real.cos (toRadians p.lon)) +
       Real.cos (toRadians p.lat) * Real.sin (toRadians p.lon) *
        (Real.cos (toRadians p.lat) * Real.sin (toRadians p.lon))) =
      Real.cos (toRadians p.lat) := by
    rw [show Real.cos (toRadians p.lat) * Real.cos (toRadians p.lon) *
        (Real.cos (toRadians p.lat) * Real.cos (toRadians p.lon)) +
       Real.cos (toRadians p.lat) * Real.sin (toRadians p.lon) *
        (Real.cos (toRadians p.lat) * Real.sin (toRadians p.lon)) =
        Real.cos (toRadians p.lat) ^ 2 from by
      nlinarith [Real.sin_sq_add_cos_sq (toRadians p.lon)]]
    exact Real.sqrt_sq hcos.le
  have hlat' : atan2 (Real.sin (toRadians p.lat)) (Real.cos (toRadians p.lat)) =
      toRadians p.lat := by
    have h := atan2_cos_sin 1 (toRadians p.lat) one_pos (by linarith) (by linarith)
    rwa [one_mul, one_mul] at h
  rw [hlon', hhyp, hlat']
  have hdeg : ∀ x : ℝ, toDegrees (toRadians x) = x := by
    intro x
    unfold toDegrees toRadians
    field_simp
  rw [hdeg, hdeg]

/-- Endpoint recovery of the slerp in the exact-real model, on the domain
where the model is free of measure-zero degeneracies: for endpoints strictly
inside the polar caps (`lat ∈ (-90, 90)`), with longitudes in `(-180, 180]`,
whose unit vectors are neither coincident nor antipodal (`-1 < dot < 1`),
`interpolateOnGreatCircle` recovers the endpoints EXACTLY at `t = 0` and
`t = 1`; and whenever the slerp central angle is zero (`dot ≥ 1`) the result
is `path.from` for every `t`.  On the excluded boundary (a pole endpoint, a
`-180°` longitude, an antipodal pair) the exact-real idealization degenerates
(`cos (π/2)` and `sin π` are exactly `0` here) in ways IEEE doubles do not —
see `interpolateOnGreatCircle_pole_degeneracy` — so the boundary behaviour of
the floating-point program is outside this embedding's reach. -/
theorem interpolateOnGreatCircle_endpoints (p q : GeoPoint)
    (hplat1 : -90 < p.lat) (hplat2 : p.lat < 90)
    (hplon1 : -180 < p.lon) (hplon2 : p.lon ≤ 180)
    (hqlat1 : -90 < q.lat) (hqlat2 : q.lat < 90)
    (hqlon1 : -180 < q.lon) (hqlon2 : q.lon ≤ 180)
    (hdot1 : -1 < cartesianDot p q) (hdot2 : cartesianDot p q < 1) :
    interpolateOnGreatCircle (createGreatCirclePath p q) 0 = p ∧
    interpolateOnGreatCircle (createGreatCirclePath p q) 1 = q ∧
    ∀ (r s : GeoPoint) (t : ℝ), 1 ≤ cartesianDot r s →
      interpolateOnGreatCircle (createGreatCirclePath r s) t = r := by
  have hω0 : 0 < Real.arccos (cartesianDot p q) := Real.arccos_pos.mpr hdot2
  have hωπ : Real.arccos (cartesianDot p q) < Real.pi :=
    lt_of_le_of_ne (Real.arccos_le_pi _) (fun hc => by
      have := Real.arccos_eq_pi.mp hc
      linarith)
  have hsin : 0 < Real.sin (Real.arccos (cartesianDot p q)) :=
    Real.sin_pos_of_pos_of_lt_pi hω0 hωπ
  refine ⟨?_, ?_, ?_⟩
  · unfold interpolateOnGreatCircle createGreatCirclePath
    dsimp only
    rw [show (toCartesian p).1 * (toCartesian q).1 +
        (toCartesian p).2.1 * (toCartesian q).2.1 +
        (toCartesian p).2.2 * (toCartesian q).2.2 = cartesianDot p q from rfl]
    rw [max_eq_right hdot1.le, min_eq_right hdot2.le, if_neg (ne_of_gt hω0)]
    rw [show min (1 : ℝ) (max 0 0) = 0 by norm_num]
    rw [show ((1 : ℝ) - 0) * Real.arccos (cartesianDot p q) =
        Real.arccos (cartesianDot p q) from by ring]
    rw [div_self (ne_of_gt hsin), zero_mul, Real.sin_zero, zero_div]
    rw [one_mul, one_mul, one_mul, zero_mul, zero_mul, zero_mul,
      add_zero, add_zero, add_zero]
    exact fromCartesian_toCartesian p hplat1 hplat2 hplon1 hplon2
  · unfold interpolateOnGreatCircle createGreatCirclePath
    dsimp only
    rw [show (toCartesian p).1 * (toCartesian q).1 +
        (toCartesian p).2.1 * (toCartesian q).2.1 +
        (toCartesian p).2.2 * (toCartesian q).2.2 = cartesianDot p q from rfl]
    rw [max_eq_right hdot1.le, min_eq_right hdot2.le, if_neg (ne_of_gt hω0)]
    rw [show min (1 : ℝ) (max 0 1) = 1 by norm_num]
    rw [show ((1 : ℝ) - 1) * Real.arccos (cartesianDot p q) = 0 from by ring]
    rw [Real.sin_zero, zero_div, one_mul, div_self (ne_of_gt hsin)]
    rw [zero_mul, zero_mul, zero_mul, one_mul, one_mul, one_mul,
      zero_add, zero_add, zero_add]
    exact fromCartesian_toCartesian q hqlat1 hqlat2 hqlon1 hqlon2
  · intro r s t h
    unfold interpolateOnGreatCircle createGreatCirclePath
    dsimp only
    rw [show (toCartesian r).1 * (toCartesian s).1 +
        (toCartesian r).2.1 * (toCartesian s).2.1 +
        (toCartesian r).2.2 * (toCartesian s).2.2 = cartesianDot r s from rfl]
    rw [max_eq_right (by linarith : (-1 : ℝ) ≤ cartesianDot r s), min_eq_left h,
      Real.arccos_one, if_pos rfl]

/-- The exact-real model's degeneracy at a pole endpoint: interpolating at
`t = 0` from `(90°, 50°)` yields longitude `0` in the model, because
`cos (π/2) = 0` exactly and `atan2 0 0 = 0`.  This is an artifact of the
idealization, not program behaviour: in IEEE doubles
`Math.cos(toRadians(90)) ≈ 6.12e-17 ≠ 0` and the longitude is recovered to
within `~1e-14°`.  The lemma documents why the slerp endpoint property is
settled here only away from the degenerate boundary. -/
theorem interpolateOnGreatCircle_pole_degeneracy :
    |(interpolateOnGreatCircle (createGreatCirclePath ⟨90, 50⟩ ⟨0, 0⟩) 0).lon -
      (createGreatCirclePath ⟨(90 : ℝ), 50⟩ ⟨0, 0⟩).from'.lon| > 1e-5 := by
  have hrad90 : toRadians 90 = Real.pi / 2 := by
    unfold toRadians
    ring
  have hrad0 : toRadians 0 = 0 := by
    unfold toRadians
    ring
  have ha : toCartesian ⟨(90 : ℝ), 50⟩ = (0, 0, 1) := by
    unfold toCartesian
    dsimp only
    rw [hrad90, Real.cos_pi_div_two, Real.sin_pi_div_two, zero_mul, zero_mul]
  have hb : toCartesian ⟨(0 : ℝ), 0⟩ = (1, 0, 0) := by
    unfold toCartesian
    dsimp only
    rw [hrad0, Real.cos_zero, Real.sin_zero, one_mul, one_mul]
  unfold interpolateOnGreatCircle createGreatCirclePath
  dsimp only
  rw [ha, hb]
  dsimp only
  rw [show (0 : ℝ) * 1 + 0 * 0 + 1 * 0 = 0 from by ring]
  rw [show min (1 : ℝ) (max (-1) 0) = 0 from by norm_num, Real.arccos_zero]
  rw [if_neg (by positivity : Real.pi / 2 ≠ 0)]
  rw [show min (1 : ℝ) (max 0 0) = 0 from by norm_num]
  rw [show ((1 : ℝ) - 0) * (Real.pi / 2) = Real.pi / 2 from by ring,
    Real.sin_pi_div_two, div_self one_ne_zero, zero_mul, Real.sin_zero, zero_div]
  rw [show ((1 : ℝ) * 0 + 0 * 1, (1 : ℝ) * 0 + 0 * 0, (1 : ℝ) * 1 + 0 * 0) =
      ((0 : ℝ), (0 : ℝ), (1 : ℝ)) from by norm_num]
  unfold fromCartesian
  dsimp only
  rw [show atan2 0 0 = 0 from by unfold atan2; norm_num]
  unfold toDegrees
  rw [zero_mul, zero_div]
  norm_num

/-- A closed instance of `interpolateOnGreatCircle_endpoints`: the
equatorial endpoints `(0°, 0°)` and `(0°, 90°)`, whose unit vectors have dot
product `0`. -/
theorem interpolateOnGreatCircle_endpoints_witness :
    ((-90 : ℝ) < 0) ∧ ((0 : ℝ) < 90) ∧ ((-180 : ℝ) < 0) ∧ ((0 : ℝ) ≤ 180) ∧
    ((-180 : ℝ) < 90) ∧ ((90 : ℝ) ≤ 180) ∧
    ((-1 : ℝ) < cartesianDot ⟨0, 0⟩ ⟨0, 90⟩) ∧
    (cartesianDot ⟨(0 : ℝ), 0⟩ ⟨0, 90⟩ < 1) ∧
    (interpolateOnGreatCircle (createGreatCirclePath ⟨0, 0⟩ ⟨0, 90⟩) 0 = ⟨0, 0⟩ ∧
     interpolateOnGreatCircle (createGreatCirclePath ⟨0, 0⟩ ⟨0, 90⟩) 1 = ⟨0, 90⟩ ∧
     ∀ (r s : GeoPoint) (t : ℝ), 1 ≤ cartesianDot r s →
       interpolateOnGreatCircle (createGreatCirclePath r s) t = r) := by
  have hdot : cartesianDot ⟨(0 : ℝ), 0⟩ ⟨0, 90⟩ = 0 := by
    unfold cartesianDot toCartesian
    dsimp only
    rw [show toRadians 90 = Real.pi / 2 from by unfold toRadians; ring,
      show toRadians 0 = 0 from by unfold toRadians; ring,
      Real.cos_pi_div_two, Real.sin_pi_div_two, Real.cos_zero, Real.sin_zero]
    ring
  refine ⟨by norm_num, by norm_num, by norm_num, by norm_num, by norm_num,
    by norm_num, by rw [hdot]; norm_num, by rw [hdot]; norm_num, ?_⟩
  exact interpolateOnGreatCircle_endpoints ⟨0, 0⟩ ⟨0, 90⟩
    (by norm_num) (by norm_num) (by norm_num) (by norm_num)
    (by norm_num) (by norm_num) (by norm_num) (by norm_num)
    (by rw [hdot]; norm_num) (by rw [hdot]; norm_num)

end Sunside
